import Mathlib

/-!
Verification of the `acquirelease` transaction runner (`src/index.ts`).

The source is a sequential, deterministic orchestration engine: acquire a
list of tagged resources in order (each acquire sees the mapping of the
previously acquired resources), then release them in reverse order — as a
rollback with `isError = true` when some acquire failed, or as a normal
release pass with `isError = false` when every acquire succeeded.  Release
failures are collected and aggregated, never allowed to abort the walk.

The embedding below is a shallow one.  `await`ed JavaScript promises that
are produced and consumed strictly sequentially are modelled as values of
`Except ε α` (a resolved promise is `Except.ok`, a rejected one is
`Except.error`).  A JavaScript object used as a string-keyed record is
modelled as an association list `List (String × α)` whose update operation
(`setEntry`) keeps the position of an existing key and appends new keys,
exactly like property assignment on a JS object.  `Option α` stands for a
possibly-`undefined` JS value (`none` = `undefined`).

In addition to the final outcome, the runner is instrumented to emit a
trace of events marking the call and the completion of every acquire and
every release, so that ordering claims and claims about the arguments a
release receives can be stated.  The events are pure observations: they do
not influence the computation.
-/

/-- `Exit` from `src/index.ts`: describes why a release is happening.
`error = none` models an absent (`undefined`) `error` property. -/
structure Exit (ε : Type) where
  isError : Bool
  error : Option ε
deriving DecidableEq

/-- One step of the pipeline (`AcquireRelease` in `src/index.ts`).
`acquire` receives the results mapping built so far; `release` is optional
and receives the value found in the results mapping under this step's tag
(`none` models JavaScript `undefined` for a missing key) together with an
`Exit` descriptor. -/
structure Step (α ε : Type) where
  tag : String
  acquire : List (String × α) → Except ε α
  release : Option (Option α → Exit ε → Except ε Unit)

/-- Lookup in the results mapping (`results[tag]` on a JS object). -/
def getEntry {α : Type} (m : List (String × α)) (k : String) : Option α :=
  (m.find? (fun p => p.1 == k)).map (fun p => p.2)

/-- Assignment `results[tag] = v` on a JS object: overwrite in place when
the key already exists, append a fresh entry otherwise. -/
def setEntry {α : Type} (m : List (String × α)) (k : String) (v : α) : List (String × α) :=
  if m.any (fun p => p.1 == k) then
    m.map (fun p => if p.1 == k then (k, v) else p)
  else m ++ [(k, v)]

deriving instance DecidableEq for Except

/-- Trace events instrumenting the runner.  `acquireStart i tag results`
records that step `i`'s acquire function was called with the given results
mapping; `acquireEnd i r` that it resolved (`Except.ok`) or rejected
(`Except.error`); `releaseStart i tag res ex` that step `i`'s release was
called with resource `res` and exit descriptor `ex`; `releaseEnd i oe` that
the release completed, with `oe = some e` when it failed with `e`. -/
inductive Event (α ε : Type) where
  | acquireStart (i : Nat) (tag : String) (results : List (String × α))
  | acquireEnd (i : Nat) (r : Except ε α)
  | releaseStart (i : Nat) (tag : String) (resource : Option α) (ex : Exit ε)
  | releaseEnd (i : Nat) (err : Option ε)
deriving DecidableEq

/-- The outcome of one invocation of the built runner: resolve with the
results mapping, reject with a raw error, or reject with an
`AggregateError` carrying a message and an ordered error list. -/
inductive Outcome (α ε : Type) where
  | ok (results : List (String × α))
  | err (e : ε)
  | aggregate (message : String) (errors : List ε)
deriving DecidableEq

/-- Message of the rollback-path `AggregateError` (`src/index.ts:222`). -/
def rollbackMessage : String := "Acquire failed and some releases also failed."

/-- Message of the success-path `AggregateError` (`src/index.ts:252`). -/
def successReleaseMessage : String := "All acquires succeeded, but there were errors during final release."

/-- The reverse release walk (`while (i >= 0)` loops at `src/index.ts:200`
and `src/index.ts:236`).  `pending` lists the successfully acquired steps
paired with their indices, most recently acquired first, so walking it is
the source's downward index walk.  Steps without a release function are
skipped; each release is called with `results[tag]` and the given exit
descriptor; errors are pushed onto the returned list in walk order. -/
def runRelease {α ε : Type} :
    List (Nat × Step α ε) → List (String × α) → Exit ε → List (Event α ε) × List ε
  | [], _, _ => ([], [])
  | (i, t) :: rest, results, ex =>
    match t.release with
    | none => runRelease rest results ex
    | some rel =>
      match rel (getEntry results t.tag) ex with
      | .ok _ =>
        (.releaseStart i t.tag (getEntry results t.tag) ex :: .releaseEnd i none ::
          (runRelease rest results ex).1,
         (runRelease rest results ex).2)
      | .error e =>
        (.releaseStart i t.tag (getEntry results t.tag) ex :: .releaseEnd i (some e) ::
          (runRelease rest results ex).1,
         e :: (runRelease rest results ex).2)

/-- The forward acquire loop (`for (; i < tasks.length; i++)` at
`src/index.ts:190`), carrying the current index `idx`, the reversed list
`done` of already-acquired steps (what the source reconstructs by walking
indices `i-1 .. 0`), and the current results mapping.

On an acquire failure it performs the rollback walk with
`{ isError := true, error := some e }` and fails with the raw error when no
release failed, or with the rollback `AggregateError`
`[acquireError, ...releaseErrors]` otherwise (`src/index.ts:218`).

When every step acquired, it performs the success release walk with
`{ isError := false, error := none }` and resolves with the results
mapping, unless some release failed, in which case it fails with the
success-path `AggregateError` of just the release errors
(`src/index.ts:249`). -/
def runSteps {α ε : Type} :
    List (Step α ε) → Nat → List (Nat × Step α ε) → List (String × α) →
    List (Event α ε) × Outcome α ε
  | [], _, done, results =>
    ((runRelease done results ⟨false, none⟩).1,
     if (runRelease done results ⟨false, none⟩).2.isEmpty then .ok results
     else .aggregate successReleaseMessage (runRelease done results ⟨false, none⟩).2)
  | t :: rest, idx, done, results =>
    match t.acquire results with
    | .ok v =>
      (.acquireStart idx t.tag results :: .acquireEnd idx (.ok v) ::
        (runSteps rest (idx + 1) ((idx, t) :: done) (setEntry results t.tag v)).1,
       (runSteps rest (idx + 1) ((idx, t) :: done) (setEntry results t.tag v)).2)
    | .error e =>
      (.acquireStart idx t.tag results :: .acquireEnd idx (.error e) ::
        (runRelease done results ⟨true, some e⟩).1,
       if (runRelease done results ⟨true, some e⟩).2.isEmpty then .err e
       else .aggregate rollbackMessage (e :: (runRelease done results ⟨true, some e⟩).2))

/-- One invocation of the built runner (`runTransaction` at
`src/index.ts:185`): start from a fresh empty results mapping and index 0. -/
def runTransaction {α ε : Type} (tasks : List (Step α ε)) :
    List (Event α ε) × Outcome α ε :=
  runSteps tasks 0 [] []

/-- `Transaction` (`src/index.ts:184`): binds the step list and returns the
zero-argument runner. -/
def Transaction {α ε : Type} (tasks : List (Step α ε)) :
    Unit → List (Event α ε) × Outcome α ε :=
  fun _ => runTransaction tasks

/-- The fluent builder (`createBuilder` at `src/index.ts:145`), modelled by
the list of steps declared so far. -/
structure Builder (α ε : Type) where
  tasks : List (Step α ε)

/-- `createBuilder(tasks)`. -/
def createBuilder {α ε : Type} (tasks : List (Step α ε)) : Builder α ε :=
  ⟨tasks⟩

/-- `createTransaction()` (`src/index.ts:81`). -/
def createTransaction {α ε : Type} : Builder α ε :=
  createBuilder []

/-- `createBracket()` (`src/index.ts:89`). -/
def createBracket {α ε : Type} : Builder α ε :=
  createBuilder []

/-- `createScope()` (`src/index.ts:97`). -/
def createScope {α ε : Type} : Builder α ε :=
  createBuilder []

/-- `Builder.add(tag, acquire, release?)` (`src/index.ts:150`): append a
step to the declared list. -/
def Builder.add {α ε : Type} (b : Builder α ε) (tag : String)
    (acquire : List (String × α) → Except ε α)
    (release : Option (Option α → Exit ε → Except ε Unit)) : Builder α ε :=
  createBuilder (b.tasks ++ [⟨tag, acquire, release⟩])

/-- `Builder.build()` (`src/index.ts:163`): bind the declared steps into a
transaction runner. -/
def Builder.build {α ε : Type} (b : Builder α ε) :
    Unit → List (Event α ε) × Outcome α ε :=
  Transaction b.tasks

/-- No acquire operation rejected during this trace (executable check). -/
def noAcquireFail {α ε : Type} (tr : List (Event α ε)) : Bool :=
  tr.all fun ev => match ev with
    | .acquireEnd _ (.error _) => false
    | _ => true

/-- No release operation rejected during this trace (executable check). -/
def noReleaseFail {α ε : Type} (tr : List (Event α ε)) : Bool :=
  tr.all fun ev => match ev with
    | .releaseEnd _ (some _) => false
    | _ => true

/-- The errors raised by release operations, in the order the releases
were attempted. -/
def releaseFailList {α ε : Type} (tr : List (Event α ε)) : List ε :=
  tr.filterMap fun ev => match ev with
    | .releaseEnd _ (some e) => some e
    | _ => none

/-- The step indices of the failing releases, in attempt order. -/
def releaseFailIndices {α ε : Type} (tr : List (Event α ε)) : List Nat :=
  tr.filterMap fun ev => match ev with
    | .releaseEnd i (some _) => some i
    | _ => none

/-- The skeleton of the release events of a trace: one `(i, false)` entry
per release call of step `i` and one `(i, true)` entry per completion, in
trace order. -/
def releaseSkel {α ε : Type} (tr : List (Event α ε)) : List (Nat × Bool) :=
  tr.filterMap fun ev => match ev with
    | .releaseStart i _ _ _ => some (i, false)
    | .releaseEnd i _ => some (i, true)
    | _ => none

/-- The indices of the steps of `l` that declare a release function. -/
def relIndices {α ε : Type} (l : List (Nat × Step α ε)) : List Nat :=
  l.filterMap fun p => if p.2.release.isSome then some p.1 else none

/-- How many times step `i`'s release function was called in this trace. -/
def countReleaseStart {α ε : Type} (tr : List (Event α ε)) (i : Nat) : Nat :=
  (tr.filter fun ev => match ev with
    | .releaseStart j _ _ _ => j == i
    | _ => false).length

/-- Decidable check that step `i`'s acquire resolved in this trace. -/
def acquiredOk {α ε : Type} (tr : List (Event α ε)) (i : Nat) : Bool :=
  tr.any fun ev => match ev with
    | .acquireEnd j (.ok _) => j == i
    | _ => false

/-- Whether the step at position `j` of the list declares a release. -/
def stepHasRelease {α ε : Type} (tasks : List (Step α ε)) (j : Nat) : Bool :=
  match tasks.get? j with
  | some t => t.release.isSome
  | none => false

/-! ## Basic facts about the predicates and the release walk -/

theorem noAcquireFail_iff {α ε : Type} (tr : List (Event α ε)) :
    noAcquireFail tr = true ↔ ∀ i e, Event.acquireEnd i (Except.error e) ∉ tr := by
  unfold noAcquireFail
  rw [List.all_eq_true]
  constructor
  · intro h i e hmem
    have := h _ hmem
    simp at this
  · intro h ev hev
    cases ev with
    | acquireEnd i r =>
      cases r with
      | ok v => rfl
      | error e => exact absurd hev (h i e)
    | acquireStart i tg snap => rfl
    | releaseStart i tg res ex => rfl
    | releaseEnd i oe => rfl

theorem noReleaseFail_iff {α ε : Type} (tr : List (Event α ε)) :
    noReleaseFail tr = true ↔ ∀ i e, Event.releaseEnd i (some e) ∉ tr := by
  unfold noReleaseFail
  rw [List.all_eq_true]
  constructor
  · intro h i e hmem
    have := h _ hmem
    simp at this
  · intro h ev hev
    cases ev with
    | releaseEnd i oe =>
      cases oe with
      | none => rfl
      | some e => exact absurd hev (h i e)
    | acquireStart i tg snap => rfl
    | acquireEnd i r => rfl
    | releaseStart i tg res ex => rfl

theorem releaseFailList_eq_nil_iff {α ε : Type} (tr : List (Event α ε)) :
    releaseFailList tr = [] ↔ noReleaseFail tr = true := by
  rw [noReleaseFail_iff]
  unfold releaseFailList
  rw [List.filterMap_eq_nil_iff]
  constructor
  · intro h i e hmem
    have := h _ hmem
    simp at this
  · intro h ev hev
    cases ev with
    | releaseEnd i oe =>
      cases oe with
      | none => rfl
      | some e => exact absurd hev (h i e)
    | acquireStart i tg snap => rfl
    | acquireEnd i r => rfl
    | releaseStart i tg res ex => rfl

/-- Every event of the release walk is a release event; every release call
of the walk carries the exit descriptor the walk was started with and the
value found in the results mapping under the released tag. -/
theorem runRelease_mem {α ε : Type} (l : List (Nat × Step α ε))
    (results : List (String × α)) (ex : Exit ε) :
    ∀ ev ∈ (runRelease l results ex).1,
      (∃ i tg, ev = Event.releaseStart i tg (getEntry results tg) ex) ∨
      (∃ i oe, ev = Event.releaseEnd i oe) := by
  induction l with
  | nil => intro ev hev; simp [runRelease] at hev
  | cons p rest ih =>
    obtain ⟨i, t⟩ := p
    intro ev hev
    rw [runRelease] at hev
    cases hrel : t.release with
    | none =>
      rw [hrel] at hev
      simp only at hev
      exact ih ev hev
    | some rel =>
      rw [hrel] at hev
      simp only at hev
      cases hcall : rel (getEntry results t.tag) ex with
      | ok u =>
        rw [hcall] at hev
        simp only at hev
        rcases List.mem_cons.mp hev with h | hev
        · exact Or.inl ⟨i, t.tag, h⟩
        rcases List.mem_cons.mp hev with h | hev
        · exact Or.inr ⟨i, none, h⟩
        · exact ih ev hev
      | error e =>
        rw [hcall] at hev
        simp only at hev
        rcases List.mem_cons.mp hev with h | hev
        · exact Or.inl ⟨i, t.tag, h⟩
        rcases List.mem_cons.mp hev with h | hev
        · exact Or.inr ⟨i, some e, h⟩
        · exact ih ev hev

theorem runRelease_no_acquireStart {α ε : Type} (l : List (Nat × Step α ε))
    (results : List (String × α)) (ex : Exit ε) (i : Nat) (tg : String)
    (snap : List (String × α)) :
    Event.acquireStart i tg snap ∉ (runRelease l results ex).1 := by
  intro hmem
  rcases runRelease_mem l results ex _ hmem with ⟨j, tg', h⟩ | ⟨j, oe, h⟩ <;> simp at h

theorem runRelease_no_acquireEnd {α ε : Type} (l : List (Nat × Step α ε))
    (results : List (String × α)) (ex : Exit ε) (i : Nat) (r : Except ε α) :
    Event.acquireEnd i r ∉ (runRelease l results ex).1 := by
  intro hmem
  rcases runRelease_mem l results ex _ hmem with ⟨j, tg', h⟩ | ⟨j, oe, h⟩ <;> simp at h

/-- The error list returned by the release walk is exactly the list of
release failures recorded in its trace, in walk order. -/
theorem runRelease_errs {α ε : Type} (l : List (Nat × Step α ε))
    (results : List (String × α)) (ex : Exit ε) :
    (runRelease l results ex).2 = releaseFailList (runRelease l results ex).1 := by
  induction l with
  | nil => simp [runRelease, releaseFailList]
  | cons p rest ih =>
    obtain ⟨i, t⟩ := p
    rw [runRelease]
    cases hrel : t.release with
    | none => simp only; exact ih
    | some rel =>
      simp only
      cases hcall : rel (getEntry results t.tag) ex with
      | ok u => simpa [releaseFailList, List.filterMap_cons] using ih
      | error e => simpa [releaseFailList, List.filterMap_cons] using ih


/-! ### Unfolding lemmas for the trace projections -/

@[simp] theorem releaseSkel_nil {α ε : Type} : releaseSkel ([] : List (Event α ε)) = [] := rfl

@[simp] theorem releaseSkel_cons_acquireStart {α ε : Type} (i : Nat) (tg : String)
    (snap : List (String × α)) (tr : List (Event α ε)) :
    releaseSkel (Event.acquireStart (ε := ε) i tg snap :: tr) = releaseSkel tr := by
  simp [releaseSkel, List.filterMap_cons]

@[simp] theorem releaseSkel_cons_acquireEnd {α ε : Type} (i : Nat) (r : Except ε α)
    (tr : List (Event α ε)) :
    releaseSkel (Event.acquireEnd i r :: tr) = releaseSkel tr := by
  simp [releaseSkel, List.filterMap_cons]

@[simp] theorem releaseSkel_cons_releaseStart {α ε : Type} (i : Nat) (tg : String)
    (res : Option α) (ex : Exit ε) (tr : List (Event α ε)) :
    releaseSkel (Event.releaseStart i tg res ex :: tr) = (i, false) :: releaseSkel tr := by
  simp [releaseSkel, List.filterMap_cons]

@[simp] theorem releaseSkel_cons_releaseEnd {α ε : Type} (i : Nat) (oe : Option ε)
    (tr : List (Event α ε)) :
    releaseSkel (Event.releaseEnd (α := α) i oe :: tr) = (i, true) :: releaseSkel tr := by
  simp [releaseSkel, List.filterMap_cons]

@[simp] theorem releaseFailList_nil {α ε : Type} : releaseFailList ([] : List (Event α ε)) = [] := rfl

@[simp] theorem releaseFailList_cons_acquireStart {α ε : Type} (i : Nat) (tg : String)
    (snap : List (String × α)) (tr : List (Event α ε)) :
    releaseFailList (Event.acquireStart (ε := ε) i tg snap :: tr) = releaseFailList tr := by
  simp [releaseFailList, List.filterMap_cons]

@[simp] theorem releaseFailList_cons_acquireEnd {α ε : Type} (i : Nat) (r : Except ε α)
    (tr : List (Event α ε)) :
    releaseFailList (Event.acquireEnd i r :: tr) = releaseFailList tr := by
  simp [releaseFailList, List.filterMap_cons]

@[simp] theorem releaseFailList_cons_releaseStart {α ε : Type} (i : Nat) (tg : String)
    (res : Option α) (ex : Exit ε) (tr : List (Event α ε)) :
    releaseFailList (Event.releaseStart i tg res ex :: tr) = releaseFailList tr := by
  simp [releaseFailList, List.filterMap_cons]

@[simp] theorem releaseFailList_cons_releaseEnd_none {α ε : Type} (i : Nat)
    (tr : List (Event α ε)) :
    releaseFailList (Event.releaseEnd (α := α) (ε := ε) i none :: tr) = releaseFailList tr := by
  simp [releaseFailList, List.filterMap_cons]

@[simp] theorem releaseFailList_cons_releaseEnd_some {α ε : Type} (i : Nat) (e : ε)
    (tr : List (Event α ε)) :
    releaseFailList (Event.releaseEnd (α := α) i (some e) :: tr) = e :: releaseFailList tr := by
  simp [releaseFailList, List.filterMap_cons]

@[simp] theorem releaseFailIndices_nil {α ε : Type} :
    releaseFailIndices ([] : List (Event α ε)) = [] := rfl

@[simp] theorem releaseFailIndices_cons_acquireStart {α ε : Type} (i : Nat) (tg : String)
    (snap : List (String × α)) (tr : List (Event α ε)) :
    releaseFailIndices (Event.acquireStart (ε := ε) i tg snap :: tr) = releaseFailIndices tr := by
  simp [releaseFailIndices, List.filterMap_cons]

@[simp] theorem releaseFailIndices_cons_acquireEnd {α ε : Type} (i : Nat) (r : Except ε α)
    (tr : List (Event α ε)) :
    releaseFailIndices (Event.acquireEnd i r :: tr) = releaseFailIndices tr := by
  simp [releaseFailIndices, List.filterMap_cons]

@[simp] theorem releaseFailIndices_cons_releaseStart {α ε : Type} (i : Nat) (tg : String)
    (res : Option α) (ex : Exit ε) (tr : List (Event α ε)) :
    releaseFailIndices (Event.releaseStart i tg res ex :: tr) = releaseFailIndices tr := by
  simp [releaseFailIndices, List.filterMap_cons]

@[simp] theorem releaseFailIndices_cons_releaseEnd_none {α ε : Type} (i : Nat)
    (tr : List (Event α ε)) :
    releaseFailIndices (Event.releaseEnd (α := α) (ε := ε) i none :: tr) =
      releaseFailIndices tr := by
  simp [releaseFailIndices, List.filterMap_cons]

@[simp] theorem releaseFailIndices_cons_releaseEnd_some {α ε : Type} (i : Nat) (e : ε)
    (tr : List (Event α ε)) :
    releaseFailIndices (Event.releaseEnd (α := α) i (some e) :: tr) =
      i :: releaseFailIndices tr := by
  simp [releaseFailIndices, List.filterMap_cons]

@[simp] theorem countReleaseStart_nil {α ε : Type} (i : Nat) :
    countReleaseStart ([] : List (Event α ε)) i = 0 := rfl

@[simp] theorem countReleaseStart_cons_acquireStart {α ε : Type} (j : Nat) (tg : String)
    (snap : List (String × α)) (tr : List (Event α ε)) (i : Nat) :
    countReleaseStart (Event.acquireStart (ε := ε) j tg snap :: tr) i =
      countReleaseStart tr i := by
  simp [countReleaseStart, List.filter_cons]

@[simp] theorem countReleaseStart_cons_acquireEnd {α ε : Type} (j : Nat) (r : Except ε α)
    (tr : List (Event α ε)) (i : Nat) :
    countReleaseStart (Event.acquireEnd j r :: tr) i = countReleaseStart tr i := by
  simp [countReleaseStart, List.filter_cons]

@[simp] theorem countReleaseStart_cons_releaseEnd {α ε : Type} (j : Nat) (oe : Option ε)
    (tr : List (Event α ε)) (i : Nat) :
    countReleaseStart (Event.releaseEnd (α := α) j oe :: tr) i = countReleaseStart tr i := by
  simp [countReleaseStart, List.filter_cons]

theorem countReleaseStart_cons_releaseStart {α ε : Type} (j : Nat) (tg : String)
    (res : Option α) (ex : Exit ε) (tr : List (Event α ε)) (i : Nat) :
    countReleaseStart (Event.releaseStart j tg res ex :: tr) i =
      countReleaseStart tr i + if j = i then 1 else 0 := by
  by_cases hji : j = i <;> simp [countReleaseStart, List.filter_cons, hji]

@[simp] theorem relIndices_nil {α ε : Type} : relIndices ([] : List (Nat × Step α ε)) = [] := rfl

theorem relIndices_cons_some {α ε : Type} (i : Nat) (t : Step α ε)
    (rest : List (Nat × Step α ε)) (rel : Option α → Exit ε → Except ε Unit)
    (hrel : t.release = some rel) :
    relIndices ((i, t) :: rest) = i :: relIndices rest := by
  simp [relIndices, List.filterMap_cons, hrel]

theorem relIndices_cons_none {α ε : Type} (i : Nat) (t : Step α ε)
    (rest : List (Nat × Step α ε)) (hrel : t.release = none) :
    relIndices ((i, t) :: rest) = relIndices rest := by
  simp [relIndices, List.filterMap_cons, hrel]

/-- The release events of a release walk consist of one call mark followed
by one completion mark for each step of the walk that declares a release
function, in walk order. -/
theorem runRelease_skel {α ε : Type} (l : List (Nat × Step α ε))
    (results : List (String × α)) (ex : Exit ε) :
    releaseSkel (runRelease l results ex).1 =
      (relIndices l).flatMap fun i => [(i, false), (i, true)] := by
  induction l with
  | nil => simp [runRelease]
  | cons p rest ih =>
    obtain ⟨i, t⟩ := p
    rw [runRelease]
    cases hrel : t.release with
    | none =>
      simp only
      rw [ih, relIndices_cons_none i t rest hrel]
    | some rel =>
      simp only
      rw [relIndices_cons_some i t rest rel hrel, List.flatMap_cons]
      cases hcall : rel (getEntry results t.tag) ex with
      | ok u => simp [ih]
      | error e => simp [ih]

/-- The failing releases of a release walk are among the steps of the walk
that declare a release function, in walk order. -/
theorem runRelease_failIndices_sublist {α ε : Type} (l : List (Nat × Step α ε))
    (results : List (String × α)) (ex : Exit ε) :
    List.Sublist (releaseFailIndices (runRelease l results ex).1) (relIndices l) := by
  induction l with
  | nil => simp [runRelease]
  | cons p rest ih =>
    obtain ⟨i, t⟩ := p
    rw [runRelease]
    cases hrel : t.release with
    | none =>
      simp only
      rw [relIndices_cons_none i t rest hrel]
      exact ih
    | some rel =>
      simp only
      rw [relIndices_cons_some i t rest rel hrel]
      cases hcall : rel (getEntry results t.tag) ex with
      | ok u => simpa using ih.cons i
      | error e => simpa using ih.cons₂ i

/-- Step `i`'s release is called by a release walk exactly as often as `i`
occurs among the walk's release-declaring steps. -/
theorem runRelease_count {α ε : Type} (l : List (Nat × Step α ε))
    (results : List (String × α)) (ex : Exit ε) (i : Nat) :
    countReleaseStart (runRelease l results ex).1 i = (relIndices l).count i := by
  induction l with
  | nil => simp [runRelease]
  | cons p rest ih =>
    obtain ⟨j, t⟩ := p
    rw [runRelease]
    cases hrel : t.release with
    | none =>
      simp only
      rw [ih, relIndices_cons_none j t rest hrel]
    | some rel =>
      simp only
      rw [relIndices_cons_some j t rest rel hrel]
      cases hcall : rel (getEntry results t.tag) ex with
      | ok u =>
        rw [countReleaseStart_cons_releaseStart, countReleaseStart_cons_releaseEnd, ih,
          List.count_cons]
        by_cases hji : j = i <;> simp [hji]
      | error e =>
        rw [countReleaseStart_cons_releaseStart, countReleaseStart_cons_releaseEnd, ih,
          List.count_cons]
        by_cases hji : j = i <;> simp [hji]

/-- Every acquire event emitted by `runSteps` carries a step index at least
the starting index. -/
theorem runSteps_acquire_index_ge {α ε : Type} (tasks : List (Step α ε)) :
    ∀ (idx : Nat) (done : List (Nat × Step α ε)) (results : List (String × α)),
    (∀ i tg snap, Event.acquireStart i tg snap ∈ (runSteps tasks idx done results).1 → idx ≤ i) ∧
    (∀ i r, Event.acquireEnd i r ∈ (runSteps tasks idx done results).1 → idx ≤ i) := by
  induction tasks with
  | nil =>
    intro idx done results
    rw [runSteps]
    constructor
    · intro i tg snap h
      exact absurd h (runRelease_no_acquireStart _ _ _ _ _ _)
    · intro i r h
      exact absurd h (runRelease_no_acquireEnd _ _ _ _ _)
  | cons t rest ih =>
    intro idx done results
    rw [runSteps]
    cases hacq : t.acquire results with
    | ok v =>
      simp only
      constructor
      · intro i tg snap h
        rcases List.mem_cons.mp h with h | h
        · injection h with h1 h2 h3; omega
        rcases List.mem_cons.mp h with h | h
        · simp at h
        · have := (ih (idx + 1) ((idx, t) :: done) (setEntry results t.tag v)).1 i tg snap h
          omega
      · intro i r h
        rcases List.mem_cons.mp h with h | h
        · simp at h
        rcases List.mem_cons.mp h with h | h
        · injection h with h1 h2; omega
        · have := (ih (idx + 1) ((idx, t) :: done) (setEntry results t.tag v)).2 i r h
          omega
    | error e =>
      simp only
      constructor
      · intro i tg snap h
        rcases List.mem_cons.mp h with h | h
        · injection h with h1 h2 h3; omega
        rcases List.mem_cons.mp h with h | h
        · simp at h
        · exact absurd h (runRelease_no_acquireStart _ _ _ _ _ _)
      · intro i r h
        rcases List.mem_cons.mp h with h | h
        · simp at h
        rcases List.mem_cons.mp h with h | h
        · injection h with h1 h2; omega
        · exact absurd h (runRelease_no_acquireEnd _ _ _ _ _)

/-! ### Outcome characterizations -/

/-- If some acquire rejected and no release failed, the run fails with the
raw originating acquire error (`src/index.ts:227`). -/
theorem runSteps_err_of_acquireFail {α ε : Type} (tasks : List (Step α ε)) :
    ∀ (idx : Nat) (done : List (Nat × Step α ε)) (results : List (String × α))
      (i : Nat) (e : ε),
    Event.acquireEnd i (Except.error e) ∈ (runSteps tasks idx done results).1 →
    releaseFailList (runSteps tasks idx done results).1 = [] →
    (runSteps tasks idx done results).2 = Outcome.err e := by
  induction tasks with
  | nil =>
    intro idx done results i e hmem _
    rw [runSteps] at hmem
    exact absurd hmem (runRelease_no_acquireEnd _ _ _ _ _)
  | cons t rest ih =>
    intro idx done results i e hmem hnil
    rw [runSteps] at hmem hnil ⊢
    cases hacq : t.acquire results with
    | ok v =>
      rw [hacq] at hmem hnil
      simp only at hmem hnil ⊢
      rcases List.mem_cons.mp hmem with h | hmem
      · simp at h
      rcases List.mem_cons.mp hmem with h | hmem
      · injection h with h1 h2; simp at h2
      · simp only [releaseFailList_cons_acquireStart, releaseFailList_cons_acquireEnd] at hnil
        exact ih _ _ _ i e hmem hnil
    | error e' =>
      rw [hacq] at hmem hnil
      simp only at hmem hnil ⊢
      simp only [releaseFailList_cons_acquireStart, releaseFailList_cons_acquireEnd] at hnil
      rcases List.mem_cons.mp hmem with h | hmem
      · simp at h
      rcases List.mem_cons.mp hmem with h | hmem
      · injection h with h1 h2
        injection h2 with h3
        subst h3
        rw [← runRelease_errs] at hnil
        simp [hnil]
      · exact absurd hmem (runRelease_no_acquireEnd _ _ _ _ _)

/-- If some acquire rejected and at least one rollback release failed, the
run fails with the rollback `AggregateError`: the originating acquire error
first, then the release errors in attempt order (`src/index.ts:220`). -/
theorem runSteps_aggregate_of_acquireFail {α ε : Type} (tasks : List (Step α ε)) :
    ∀ (idx : Nat) (done : List (Nat × Step α ε)) (results : List (String × α))
      (i : Nat) (e : ε),
    Event.acquireEnd i (Except.error e) ∈ (runSteps tasks idx done results).1 →
    releaseFailList (runSteps tasks idx done results).1 ≠ [] →
    (runSteps tasks idx done results).2 =
      Outcome.aggregate rollbackMessage
        (e :: releaseFailList (runSteps tasks idx done results).1) := by
  induction tasks with
  | nil =>
    intro idx done results i e hmem _
    rw [runSteps] at hmem
    exact absurd hmem (runRelease_no_acquireEnd _ _ _ _ _)
  | cons t rest ih =>
    intro idx done results i e hmem hne
    rw [runSteps] at hmem hne ⊢
    cases hacq : t.acquire results with
    | ok v =>
      rw [hacq] at hmem hne
      simp only at hmem hne ⊢
      rcases List.mem_cons.mp hmem with h | hmem
      · simp at h
      rcases List.mem_cons.mp hmem with h | hmem
      · injection h with h1 h2; simp at h2
      · simp only [releaseFailList_cons_acquireStart, releaseFailList_cons_acquireEnd] at hne ⊢
        exact ih _ _ _ i e hmem hne
    | error e' =>
      rw [hacq] at hmem hne
      simp only at hmem hne ⊢
      simp only [releaseFailList_cons_acquireStart, releaseFailList_cons_acquireEnd] at hne ⊢
      rcases List.mem_cons.mp hmem with h | hmem
      · simp at h
      rcases List.mem_cons.mp hmem with h | hmem
      · injection h with h1 h2
        injection h2 with h3
        subst h3
        rw [← runRelease_errs] at hne ⊢
        have : ((runRelease done results ⟨true, some e⟩).2).isEmpty = false := by
          cases hE : (runRelease done results ⟨true, some e⟩).2 with
          | nil => exact absurd hE hne
          | cons a l => rfl
        simp [this]
      · exact absurd hmem (runRelease_no_acquireEnd _ _ _ _ _)

/-- If every acquire resolved but at least one release failed during the
success pass, the run fails with the success-path `AggregateError` of
exactly the release errors, in attempt order (`src/index.ts:250`). -/
theorem runSteps_aggregate_of_releaseFail {α ε : Type} (tasks : List (Step α ε)) :
    ∀ (idx : Nat) (done : List (Nat × Step α ε)) (results : List (String × α)),
    noAcquireFail (runSteps tasks idx done results).1 = true →
    releaseFailList (runSteps tasks idx done results).1 ≠ [] →
    (runSteps tasks idx done results).2 =
      Outcome.aggregate successReleaseMessage
        (releaseFailList (runSteps tasks idx done results).1) := by
  induction tasks with
  | nil =>
    intro idx done results _ hne
    rw [runSteps] at hne ⊢
    rw [← runRelease_errs] at hne ⊢
    have : ((runRelease done results ⟨false, none⟩).2).isEmpty = false := by
      cases hE : (runRelease done results ⟨false, none⟩).2 with
      | nil => exact absurd hE hne
      | cons a l => rfl
    simp [this]
  | cons t rest ih =>
    intro idx done results hok hne
    rw [runSteps] at hok hne ⊢
    cases hacq : t.acquire results with
    | ok v =>
      rw [hacq] at hok hne
      simp only at hok hne ⊢
      simp only [releaseFailList_cons_acquireStart, releaseFailList_cons_acquireEnd] at hne ⊢
      simp only [noAcquireFail, List.all_cons, Bool.and_eq_true] at hok
      exact ih _ _ _ hok.2.2 hne
    | error e' =>
      rw [hacq] at hok hne
      simp only at hok hne ⊢
      exfalso
      have := (noAcquireFail_iff _).mp hok idx e'
      simp [List.mem_cons] at this

theorem relIndices_sublist_map_fst {α ε : Type} (l : List (Nat × Step α ε)) :
    List.Sublist (relIndices l) (l.map Prod.fst) := by
  induction l with
  | nil => simp
  | cons p rest ih =>
    obtain ⟨i, t⟩ := p
    cases hrel : t.release with
    | none =>
      rw [relIndices_cons_none i t rest hrel, List.map_cons]
      exact ih.cons i
    | some rel =>
      rw [relIndices_cons_some i t rest rel hrel, List.map_cons]
      exact ih.cons₂ i

/-- The release events of a full run form one contiguous reverse pass: a
strictly decreasing sequence of step indices, each contributing its call
mark immediately followed by its completion mark. -/
theorem runSteps_skel {α ε : Type} (tasks : List (Step α ε)) :
    ∀ (idx : Nat) (done : List (Nat × Step α ε)) (results : List (String × α)),
    (done.map Prod.fst).Pairwise (· > ·) → (∀ p ∈ done, p.1 < idx) →
    ∃ l : List Nat, l.Pairwise (· > ·) ∧
      releaseSkel (runSteps tasks idx done results).1 =
        l.flatMap fun i => [(i, false), (i, true)] := by
  induction tasks with
  | nil =>
    intro idx done results hpw _
    rw [runSteps]
    exact ⟨relIndices done,
      hpw.sublist (relIndices_sublist_map_fst done), runRelease_skel done results _⟩
  | cons t rest ih =>
    intro idx done results hpw hlt
    rw [runSteps]
    cases hacq : t.acquire results with
    | ok v =>
      simp only [releaseSkel_cons_acquireStart, releaseSkel_cons_acquireEnd]
      refine ih (idx + 1) ((idx, t) :: done) (setEntry results t.tag v) ?_ ?_
      · rw [List.map_cons]
        exact List.Pairwise.cons (fun j hj => by
          obtain ⟨p, hp, hpj⟩ := List.mem_map.mp hj
          subst hpj
          exact hlt p hp) hpw
      · intro p hp
        rcases List.mem_cons.mp hp with h | h
        · subst h; omega
        · have := hlt p h; omega
    | error e =>
      simp only [releaseSkel_cons_acquireStart, releaseSkel_cons_acquireEnd]
      exact ⟨relIndices done,
        hpw.sublist (relIndices_sublist_map_fst done), runRelease_skel done results _⟩

/-- The steps whose release failed during a run, in attempt order, are in
strictly decreasing index order (reverse of acquisition order). -/
theorem runSteps_failIndices_pairwise {α ε : Type} (tasks : List (Step α ε)) :
    ∀ (idx : Nat) (done : List (Nat × Step α ε)) (results : List (String × α)),
    (done.map Prod.fst).Pairwise (· > ·) → (∀ p ∈ done, p.1 < idx) →
    (releaseFailIndices (runSteps tasks idx done results).1).Pairwise (· > ·) := by
  induction tasks with
  | nil =>
    intro idx done results hpw _
    rw [runSteps]
    exact hpw.sublist ((runRelease_failIndices_sublist done results _).trans
      (relIndices_sublist_map_fst done))
  | cons t rest ih =>
    intro idx done results hpw hlt
    rw [runSteps]
    cases hacq : t.acquire results with
    | ok v =>
      simp only [releaseFailIndices_cons_acquireStart, releaseFailIndices_cons_acquireEnd]
      refine ih (idx + 1) ((idx, t) :: done) (setEntry results t.tag v) ?_ ?_
      · rw [List.map_cons]
        exact List.Pairwise.cons (fun j hj => by
          obtain ⟨p, hp, hpj⟩ := List.mem_map.mp hj
          subst hpj
          exact hlt p hp) hpw
      · intro p hp
        rcases List.mem_cons.mp hp with h | h
        · subst h; omega
        · have := hlt p h; omega
    | error e =>
      simp only [releaseFailIndices_cons_acquireStart, releaseFailIndices_cons_acquireEnd]
      exact hpw.sublist ((runRelease_failIndices_sublist done results _).trans
        (relIndices_sublist_map_fst done))

theorem acquiredOk_iff {α ε : Type} (tr : List (Event α ε)) (i : Nat) :
    acquiredOk tr i = true ↔ ∃ v, Event.acquireEnd i (Except.ok v) ∈ tr := by
  unfold acquiredOk
  rw [List.any_eq_true]
  constructor
  · rintro ⟨ev, hev, hmatch⟩
    cases ev with
    | acquireEnd j r =>
      cases r with
      | ok v =>
        simp only [Nat.beq_eq_true_eq] at hmatch
        subst hmatch
        exact ⟨v, hev⟩
      | error e => simp at hmatch
    | acquireStart j tg snap => simp at hmatch
    | releaseStart j tg res ex => simp at hmatch
    | releaseEnd j oe => simp at hmatch
  · rintro ⟨v, hv⟩
    exact ⟨_, hv, by simp⟩

theorem acquiredOk_runRelease {α ε : Type} (l : List (Nat × Step α ε))
    (results : List (String × α)) (ex : Exit ε) (i : Nat) :
    acquiredOk (runRelease l results ex).1 i = false := by
  by_contra h
  rw [Bool.not_eq_false] at h
  obtain ⟨v, hv⟩ := (acquiredOk_iff _ _).mp h
  exact runRelease_no_acquireEnd _ _ _ _ _ hv

@[simp] theorem acquiredOk_nil {α ε : Type} (i : Nat) :
    acquiredOk ([] : List (Event α ε)) i = false := rfl

@[simp] theorem acquiredOk_cons_acquireStart {α ε : Type} (j : Nat) (tg : String)
    (snap : List (String × α)) (tr : List (Event α ε)) (i : Nat) :
    acquiredOk (Event.acquireStart (ε := ε) j tg snap :: tr) i = acquiredOk tr i := by
  simp [acquiredOk, List.any_cons]

@[simp] theorem acquiredOk_cons_acquireEnd_ok {α ε : Type} (j : Nat) (v : α)
    (tr : List (Event α ε)) (i : Nat) :
    acquiredOk (Event.acquireEnd (ε := ε) j (Except.ok v) :: tr) i =
      ((j == i) || acquiredOk tr i) := by
  simp [acquiredOk, List.any_cons]

@[simp] theorem acquiredOk_cons_acquireEnd_error {α ε : Type} (j : Nat) (e : ε)
    (tr : List (Event α ε)) (i : Nat) :
    acquiredOk (Event.acquireEnd (α := α) j (Except.error e) :: tr) i = acquiredOk tr i := by
  simp [acquiredOk, List.any_cons]

@[simp] theorem acquiredOk_cons_releaseStart {α ε : Type} (j : Nat) (tg : String)
    (res : Option α) (ex : Exit ε) (tr : List (Event α ε)) (i : Nat) :
    acquiredOk (Event.releaseStart j tg res ex :: tr) i = acquiredOk tr i := by
  simp [acquiredOk, List.any_cons]

@[simp] theorem acquiredOk_cons_releaseEnd {α ε : Type} (j : Nat) (oe : Option ε)
    (tr : List (Event α ε)) (i : Nat) :
    acquiredOk (Event.releaseEnd (α := α) j oe :: tr) i = acquiredOk tr i := by
  simp [acquiredOk, List.any_cons]

/-- Every release call of a run is made with an exit descriptor whose
`isError` flag is set exactly when some acquire of the run rejected, whose
`error` field then carries that originating acquire error, and whose
`error` field is absent on the success path. -/
theorem runSteps_exit_correct {α ε : Type} (tasks : List (Step α ε)) :
    ∀ (idx : Nat) (done : List (Nat × Step α ε)) (results : List (String × α))
      (i : Nat) (tg : String) (res : Option α) (ex : Exit ε),
    Event.releaseStart i tg res ex ∈ (runSteps tasks idx done results).1 →
    (ex.isError = true ↔
      ∃ j e, Event.acquireEnd j (Except.error e) ∈ (runSteps tasks idx done results).1) ∧
    (∀ j e, Event.acquireEnd j (Except.error e) ∈ (runSteps tasks idx done results).1 →
      ex.error = some e) ∧
    (ex.isError = false → ex.error = none) := by
  induction tasks with
  | nil =>
    intro idx done results i tg res ex hmem
    rw [runSteps] at hmem ⊢
    rcases runRelease_mem done results _ _ hmem with ⟨i', tg', h⟩ | ⟨i', oe, h⟩
    · injection h with h1 h2 h3 h4
      subst h4
      refine ⟨?_, ?_, fun _ => rfl⟩
      · simp only [Exit.isError]
        constructor
        · intro h; cases h
        · rintro ⟨j, e, hj⟩
          exact absurd hj (runRelease_no_acquireEnd _ _ _ _ _)
      · intro j e hj
        exact absurd hj (runRelease_no_acquireEnd _ _ _ _ _)
    · simp at h
  | cons t rest ih =>
    intro idx done results i tg res ex hmem
    rw [runSteps] at hmem ⊢
    cases hacq : t.acquire results with
    | ok v =>
      rw [hacq] at hmem
      simp only at hmem ⊢
      rcases List.mem_cons.mp hmem with h | hmem
      · simp at h
      rcases List.mem_cons.mp hmem with h | hmem
      · simp at h
      obtain ⟨h1, h2, h3⟩ := ih (idx + 1) ((idx, t) :: done) (setEntry results t.tag v)
        i tg res ex hmem
      refine ⟨?_, ?_, h3⟩
      · rw [h1]
        constructor
        · rintro ⟨j, e, hj⟩
          exact ⟨j, e, List.mem_cons.mpr (Or.inr (List.mem_cons.mpr (Or.inr hj)))⟩
        · rintro ⟨j, e, hj⟩
          rcases List.mem_cons.mp hj with h | hj
          · simp at h
          rcases List.mem_cons.mp hj with h | hj
          · injection h with ha hb; simp at hb
          · exact ⟨j, e, hj⟩
      · intro j e hj
        rcases List.mem_cons.mp hj with h | hj
        · simp at h
        rcases List.mem_cons.mp hj with h | hj
        · injection h with ha hb; simp at hb
        · exact h2 j e hj
    | error e' =>
      rw [hacq] at hmem
      simp only at hmem ⊢
      rcases List.mem_cons.mp hmem with h | hmem
      · simp at h
      rcases List.mem_cons.mp hmem with h | hmem
      · simp at h
      rcases runRelease_mem done results _ _ hmem with ⟨i', tg', h⟩ | ⟨i', oe, h⟩
      · injection h with h1 h2 h3 h4
        subst h4
        refine ⟨?_, ?_, ?_⟩
        · simp only [Exit.isError]
          constructor
          · intro _
            exact ⟨idx, e', List.mem_cons.mpr (Or.inr (List.mem_cons.mpr (Or.inl rfl)))⟩
          · intro _; trivial
        · intro j e hj
          rcases List.mem_cons.mp hj with h | hj
          · simp at h
          rcases List.mem_cons.mp hj with h | hj
          · injection h with ha hb
            injection hb with hc
            subst hc
            rfl
          · exact absurd hj (runRelease_no_acquireEnd _ _ _ _ _)
        · intro hfalse
          simp only [Exit.isError] at hfalse
          cases hfalse
      · simp at h

@[simp] theorem stepHasRelease_cons_zero {α ε : Type} (t : Step α ε) (rest : List (Step α ε)) :
    stepHasRelease (t :: rest) 0 = t.release.isSome := rfl

@[simp] theorem stepHasRelease_cons_succ {α ε : Type} (t : Step α ε) (rest : List (Step α ε))
    (k : Nat) :
    stepHasRelease (t :: rest) (k + 1) = stepHasRelease rest k := rfl

/-- How often step `i`'s release is called during a run: once per
occurrence of `i` among the release-declaring steps already in `done`, plus
once more exactly when step `i` acquired successfully during the run and
declares a release function. -/
theorem runSteps_count {α ε : Type} (tasks : List (Step α ε)) :
    ∀ (idx : Nat) (done : List (Nat × Step α ε)) (results : List (String × α)) (i : Nat),
    countReleaseStart (runSteps tasks idx done results).1 i =
      (relIndices done).count i +
        (if acquiredOk (runSteps tasks idx done results).1 i = true ∧ idx ≤ i ∧
            stepHasRelease tasks (i - idx) = true then 1 else 0) := by
  induction tasks with
  | nil =>
    intro idx done results i
    rw [runSteps]
    rw [runRelease_count]
    rw [if_neg]
    · omega
    · rintro ⟨h1, _, _⟩
      rw [acquiredOk_runRelease] at h1
      cases h1
  | cons t rest ih =>
    intro idx done results i
    rw [runSteps]
    cases hacq : t.acquire results with
    | ok v =>
      simp only [countReleaseStart_cons_acquireStart, countReleaseStart_cons_acquireEnd,
        acquiredOk_cons_acquireStart, acquiredOk_cons_acquireEnd_ok]
      rw [ih (idx + 1) ((idx, t) :: done) (setEntry results t.tag v) i]
      by_cases hi : i = idx
      · subst hi
        rw [if_neg (by rintro ⟨_, hle, _⟩; omega)]
        cases hrel : t.release with
        | some rel =>
          rw [relIndices_cons_some i t done rel hrel]
          simp [List.count_cons, hrel, Nat.sub_self]
        | none =>
          rw [relIndices_cons_none i t done hrel]
          simp [hrel, Nat.sub_self]
      · have hbeq : (idx == i) = false := by
          simp only [beq_eq_false_iff_ne, ne_eq]
          omega
        have hcount : (relIndices ((idx, t) :: done)).count i = (relIndices done).count i := by
          cases hrel : t.release with
          | some rel =>
            rw [relIndices_cons_some idx t done rel hrel, List.count_cons, hbeq]
            simp
          | none => rw [relIndices_cons_none idx t done hrel]
        rw [hcount]
        congr 1
        apply if_congr ?_ rfl rfl
        constructor
        · rintro ⟨h1, h2, h3⟩
          refine ⟨by rw [h1, Bool.or_true], by omega, ?_⟩
          have hsub : i - idx = (i - (idx + 1)) + 1 := by omega
          rw [hsub, stepHasRelease_cons_succ]
          exact h3
        · rintro ⟨h1, h2, h3⟩
          rw [hbeq, Bool.false_or] at h1
          refine ⟨h1, by omega, ?_⟩
          have hsub : i - idx = (i - (idx + 1)) + 1 := by omega
          rw [hsub, stepHasRelease_cons_succ] at h3
          exact h3
    | error e' =>
      simp only [countReleaseStart_cons_acquireStart, countReleaseStart_cons_acquireEnd,
        acquiredOk_cons_acquireStart, acquiredOk_cons_acquireEnd_error]
      rw [runRelease_count]
      rw [if_neg]
      · omega
      · rintro ⟨h1, _, _⟩
        rw [acquiredOk_runRelease] at h1
        cases h1

/-! ### Results-mapping lemmas -/

@[simp] theorem getEntry_nil {α : Type} (k : String) :
    getEntry ([] : List (String × α)) k = none := rfl

theorem getEntry_cons {α : Type} (p : String × α) (m : List (String × α)) (k : String) :
    getEntry (p :: m) k = if (p.1 == k) = true then some p.2 else getEntry m k := by
  by_cases hp : (p.1 == k) = true
  · simp [getEntry, List.find?_cons, hp]
  · simp [getEntry, List.find?_cons, hp]

theorem anyKey_eq_false_iff {α : Type} (m : List (String × α)) (k : String) :
    (m.any fun p => p.1 == k) = false ↔ getEntry m k = none := by
  induction m with
  | nil => simp
  | cons p rest ih =>
    rw [List.any_cons, getEntry_cons]
    by_cases hp : (p.1 == k) = true
    · simp [hp]
    · rw [if_neg hp]
      simp only [Bool.not_eq_true] at hp
      simp [hp, ih]

theorem setEntry_of_none {α : Type} (m : List (String × α)) (k : String) (v : α)
    (h : getEntry m k = none) : setEntry m k v = m ++ [(k, v)] := by
  rw [setEntry, if_neg]
  rw [Bool.not_eq_true, anyKey_eq_false_iff]
  exact h

theorem getEntry_append {α : Type} (m1 m2 : List (String × α)) (k : String) :
    getEntry (m1 ++ m2) k =
      match getEntry m1 k with
      | some w => some w
      | none => getEntry m2 k := by
  induction m1 with
  | nil => simp
  | cons p rest ih =>
    rw [List.cons_append, getEntry_cons, getEntry_cons]
    by_cases hp : (p.1 == k) = true
    · simp [hp]
    · simp [hp, ih]

theorem getEntry_append_of_some {α : Type} (m1 m2 : List (String × α)) (k : String) (w : α)
    (h : getEntry m1 k = some w) : getEntry (m1 ++ m2) k = some w := by
  rw [getEntry_append, h]

theorem getEntry_append_of_none {α : Type} (m1 m2 : List (String × α)) (k : String)
    (h : getEntry m1 k = none) : getEntry (m1 ++ m2) k = getEntry m2 k := by
  rw [getEntry_append, h]

theorem getEntry_singleton_self {α : Type} (k : String) (v : α) :
    getEntry [(k, v)] k = some v := by
  rw [getEntry_cons]
  simp

theorem getEntry_singleton_ne {α : Type} (k k' : String) (v : α) (h : k' ≠ k) :
    getEntry [(k, v)] k' = none := by
  rw [getEntry_cons]
  rw [if_neg]
  · rfl
  · simp only [beq_eq_false_iff_ne, ne_eq, Bool.not_eq_true]
    intro hc
    exact absurd (by simpa using hc) (Ne.symm h)

/-- Updating a key not present in the mapping does not disturb any other
key's entry and appends one entry. -/
theorem getEntry_setEntry_of_none_ne {α : Type} (m : List (String × α)) (k k' : String)
    (v : α) (hnone : getEntry m k = none) (hne : k' ≠ k) :
    getEntry (setEntry m k v) k' = getEntry m k' := by
  rw [setEntry_of_none m k v hnone, getEntry_append]
  cases hg : getEntry m k' with
  | some w => rfl
  | none => exact getEntry_singleton_ne k k' v hne

theorem getEntry_setEntry_of_none_self {α : Type} (m : List (String × α)) (k : String)
    (v : α) (hnone : getEntry m k = none) :
    getEntry (setEntry m k v) k = some v := by
  rw [setEntry_of_none m k v hnone, getEntry_append_of_none _ _ _ hnone]
  exact getEntry_singleton_self k v

theorem length_setEntry_of_none {α : Type} (m : List (String × α)) (k : String) (v : α)
    (hnone : getEntry m k = none) : (setEntry m k v).length = m.length + 1 := by
  rw [setEntry_of_none m k v hnone, List.length_append]
  rfl

theorem getEntry_map_overwrite {α : Type} (m : List (String × α)) (k k' : String) (v : α)
    (hne : k' ≠ k) :
    getEntry (m.map fun p => if (p.1 == k) = true then (k, v) else p) k' = getEntry m k' := by
  induction m with
  | nil => rfl
  | cons p rest ih =>
    rw [List.map_cons]
    by_cases hp : (p.1 == k) = true
    · have hpk : p.1 = k := by simpa using hp
      have h1 : ((k, v).1 == k') = false := by
        simp only [beq_eq_false_iff_ne, ne_eq]
        exact fun hc => hne hc.symm
      have h2 : (p.1 == k') = false := by
        simp only [beq_eq_false_iff_ne, ne_eq]
        rw [hpk]
        exact fun hc => hne hc.symm
      rw [if_pos hp, getEntry_cons, getEntry_cons, h1, h2]
      simp only [Bool.false_eq_true, if_false]
      exact ih
    · rw [if_neg hp, getEntry_cons, getEntry_cons]
      by_cases hpk : (p.1 == k') = true
      · simp [hpk]
      · simp only [hpk, Bool.false_eq_true, if_false]
        exact ih

/-- Updating any key (present or not) leaves every other key's entry
unchanged. -/
theorem getEntry_setEntry_ne {α : Type} (m : List (String × α)) (k k' : String) (v : α)
    (hne : k' ≠ k) : getEntry (setEntry m k v) k' = getEntry m k' := by
  rw [setEntry]
  by_cases hany : (m.any fun p => p.1 == k) = true
  · rw [if_pos hany]
    exact getEntry_map_overwrite m k k' v hne
  · rw [if_neg hany]
    rw [Bool.not_eq_true, anyKey_eq_false_iff] at hany
    rw [getEntry_append]
    cases hg : getEntry m k' with
    | some w => rfl
    | none => exact getEntry_singleton_ne k k' v hne

@[simp] theorem noAcquireFail_nil {α ε : Type} :
    noAcquireFail ([] : List (Event α ε)) = true := rfl

@[simp] theorem noAcquireFail_cons_acquireStart {α ε : Type} (j : Nat) (tg : String)
    (snap : List (String × α)) (tr : List (Event α ε)) :
    noAcquireFail (Event.acquireStart (ε := ε) j tg snap :: tr) = noAcquireFail tr := by
  simp [noAcquireFail, List.all_cons]

@[simp] theorem noAcquireFail_cons_acquireEnd_ok {α ε : Type} (j : Nat) (v : α)
    (tr : List (Event α ε)) :
    noAcquireFail (Event.acquireEnd (ε := ε) j (Except.ok v) :: tr) = noAcquireFail tr := by
  simp [noAcquireFail, List.all_cons]

@[simp] theorem noAcquireFail_cons_acquireEnd_error {α ε : Type} (j : Nat) (e : ε)
    (tr : List (Event α ε)) :
    noAcquireFail (Event.acquireEnd (α := α) j (Except.error e) :: tr) = false := by
  simp [noAcquireFail, List.all_cons]

@[simp] theorem noAcquireFail_cons_releaseStart {α ε : Type} (j : Nat) (tg : String)
    (res : Option α) (ex : Exit ε) (tr : List (Event α ε)) :
    noAcquireFail (Event.releaseStart j tg res ex :: tr) = noAcquireFail tr := by
  simp [noAcquireFail, List.all_cons]

@[simp] theorem noAcquireFail_cons_releaseEnd {α ε : Type} (j : Nat) (oe : Option ε)
    (tr : List (Event α ε)) :
    noAcquireFail (Event.releaseEnd (α := α) j oe :: tr) = noAcquireFail tr := by
  simp [noAcquireFail, List.all_cons]

@[simp] theorem noReleaseFail_nil {α ε : Type} :
    noReleaseFail ([] : List (Event α ε)) = true := rfl

@[simp] theorem noReleaseFail_cons_acquireStart {α ε : Type} (j : Nat) (tg : String)
    (snap : List (String × α)) (tr : List (Event α ε)) :
    noReleaseFail (Event.acquireStart (ε := ε) j tg snap :: tr) = noReleaseFail tr := by
  simp [noReleaseFail, List.all_cons]

@[simp] theorem noReleaseFail_cons_acquireEnd {α ε : Type} (j : Nat) (r : Except ε α)
    (tr : List (Event α ε)) :
    noReleaseFail (Event.acquireEnd j r :: tr) = noReleaseFail tr := by
  simp [noReleaseFail, List.all_cons]

@[simp] theorem noReleaseFail_cons_releaseStart {α ε : Type} (j : Nat) (tg : String)
    (res : Option α) (ex : Exit ε) (tr : List (Event α ε)) :
    noReleaseFail (Event.releaseStart j tg res ex :: tr) = noReleaseFail tr := by
  simp [noReleaseFail, List.all_cons]

@[simp] theorem noReleaseFail_cons_releaseEnd_none {α ε : Type} (j : Nat)
    (tr : List (Event α ε)) :
    noReleaseFail (Event.releaseEnd (α := α) (ε := ε) j none :: tr) = noReleaseFail tr := by
  simp [noReleaseFail, List.all_cons]

@[simp] theorem noReleaseFail_cons_releaseEnd_some {α ε : Type} (j : Nat) (e : ε)
    (tr : List (Event α ε)) :
    noReleaseFail (Event.releaseEnd (α := α) j (some e) :: tr) = false := by
  simp [noReleaseFail, List.all_cons]

/-- When every tag is distinct, no acquire rejects and no release fails,
the run resolves with a mapping holding exactly one entry per step — the
step's resolved resource under the step's tag — and preserving nothing
else. -/
theorem runSteps_success {α ε : Type} (tasks : List (Step α ε)) :
    ∀ (idx : Nat) (done : List (Nat × Step α ε)) (results : List (String × α)),
    (tasks.map Step.tag).Nodup →
    (∀ t ∈ tasks, getEntry results t.tag = none) →
    noAcquireFail (runSteps tasks idx done results).1 = true →
    noReleaseFail (runSteps tasks idx done results).1 = true →
    ∃ R, (runSteps tasks idx done results).2 = Outcome.ok R ∧
      R.length = results.length + tasks.length ∧
      (∀ k w, getEntry results k = some w → getEntry R k = some w) ∧
      (∀ i t, tasks.get? i = some t →
        ∃ v, Event.acquireEnd (idx + i) (Except.ok v) ∈ (runSteps tasks idx done results).1 ∧
          getEntry R t.tag = some v) := by
  induction tasks with
  | nil =>
    intro idx done results _ _ _ hnorel
    rw [runSteps] at hnorel ⊢
    have herrs : (runRelease done results ⟨false, none⟩).2 = [] := by
      rw [runRelease_errs, releaseFailList_eq_nil_iff]
      exact hnorel
    refine ⟨results, by simp [herrs], by simp, fun k w h => h, ?_⟩
    intro i t h
    simp at h
  | cons t rest ih =>
    intro idx done results hnd hdisj hnoacq hnorel
    rw [List.map_cons, List.nodup_cons] at hnd
    have htagnone : getEntry results t.tag = none := hdisj t (List.mem_cons_self t rest)
    rw [runSteps] at hnoacq hnorel ⊢
    cases hacq : t.acquire results with
    | ok v =>
      rw [hacq] at hnoacq hnorel
      simp only [noAcquireFail_cons_acquireStart, noAcquireFail_cons_acquireEnd_ok,
        noReleaseFail_cons_acquireStart, noReleaseFail_cons_acquireEnd] at hnoacq hnorel
      have hdisj' : ∀ t' ∈ rest, getEntry (setEntry results t.tag v) t'.tag = none := by
        intro t' ht'
        have hne : t'.tag ≠ t.tag := by
          intro hc
          exact hnd.1 (List.mem_map.mpr ⟨t', ht', hc⟩)
        rw [getEntry_setEntry_ne results t.tag t'.tag v hne]
        exact hdisj t' (List.mem_cons_of_mem t ht')
      obtain ⟨R, hR, hlen, hpres, hstep⟩ :=
        ih (idx + 1) ((idx, t) :: done) (setEntry results t.tag v) hnd.2 hdisj' hnoacq hnorel
      refine ⟨R, by simp only; exact hR, ?_, ?_, ?_⟩
      · rw [hlen, length_setEntry_of_none results t.tag v htagnone]
        simp [List.length_cons]
        omega
      · intro k w h
        have hkne : k ≠ t.tag := by
          intro hc
          rw [hc, htagnone] at h
          cases h
        refine hpres k w ?_
        rw [getEntry_setEntry_ne results t.tag k v hkne]
        exact h
      · intro i t' hget
        cases i with
        | zero =>
          have ht' : t' = t := by
            simp [List.get?] at hget
            exact hget.symm
          subst ht'
          refine ⟨v, ?_, ?_⟩
          · simp only
            exact List.mem_cons.mpr (Or.inr (List.mem_cons.mpr (Or.inl (by rw [Nat.add_zero]))))
          · exact hpres t'.tag v (getEntry_setEntry_of_none_self results t'.tag v htagnone)
        | succ i' =>
          rw [List.get?_cons_succ] at hget
          obtain ⟨v', hmem, hRt⟩ := hstep i' t' hget
          refine ⟨v', ?_, hRt⟩
          simp only
          refine List.mem_cons.mpr (Or.inr (List.mem_cons.mpr (Or.inr ?_)))
          have : idx + (i' + 1) = idx + 1 + i' := by omega
          rw [this]
          exact hmem
    | error e' =>
      rw [hacq] at hnoacq
      simp only [noAcquireFail_cons_acquireStart, noAcquireFail_cons_acquireEnd_error]
        at hnoacq
      cases hnoacq

/-- When every tag is distinct, each acquire call receives a mapping with
exactly one entry per previously resolved step, holding that step's
resource, all earlier steps having resolved; nothing else ever enters a
snapshot beyond what was there at the start. -/
theorem runSteps_snapshots {α ε : Type} (tasks : List (Step α ε)) :
    ∀ (idx : Nat) (done : List (Nat × Step α ε)) (results : List (String × α)),
    (tasks.map Step.tag).Nodup →
    (∀ t ∈ tasks, getEntry results t.tag = none) →
    ∀ j tg snap, Event.acquireStart j tg snap ∈ (runSteps tasks idx done results).1 →
      idx ≤ j ∧
      snap.length = results.length + (j - idx) ∧
      (∀ k w, getEntry results k = some w → getEntry snap k = some w) ∧
      (∀ i, idx ≤ i → i < j →
        ∃ v, Event.acquireEnd i (Except.ok v) ∈ (runSteps tasks idx done results).1) ∧
      (∀ i v t', idx ≤ i → i < j →
        Event.acquireEnd i (Except.ok v) ∈ (runSteps tasks idx done results).1 →
        tasks.get? (i - idx) = some t' → getEntry snap t'.tag = some v) := by
  induction tasks with
  | nil =>
    intro idx done results _ _ j tg snap hmem
    rw [runSteps] at hmem
    exact absurd hmem (runRelease_no_acquireStart _ _ _ _ _ _)
  | cons t rest ih =>
    intro idx done results hnd hdisj j tg snap hmem
    rw [List.map_cons, List.nodup_cons] at hnd
    have htagnone : getEntry results t.tag = none := hdisj t (List.mem_cons_self t rest)
    rw [runSteps] at hmem ⊢
    cases hacq : t.acquire results with
    | ok v =>
      rw [hacq] at hmem
      simp only at hmem ⊢
      have hdisj' : ∀ t' ∈ rest, getEntry (setEntry results t.tag v) t'.tag = none := by
        intro t' ht'
        have hne : t'.tag ≠ t.tag := by
          intro hc
          exact hnd.1 (List.mem_map.mpr ⟨t', ht', hc⟩)
        rw [getEntry_setEntry_ne results t.tag t'.tag v hne]
        exact hdisj t' (List.mem_cons_of_mem t ht')
      rcases List.mem_cons.mp hmem with h | hmem
      · injection h with h1 h2 h3
        subst h1
        subst h3
        refine ⟨by omega, by omega, fun k w h => h, ?_, ?_⟩
        · intro i hle hlt
          omega
        · intro i v' t' hle hlt
          omega
      rcases List.mem_cons.mp hmem with h | hmem
      · simp at h
      obtain ⟨hj, hlen, hpres, hD, hC⟩ :=
        ih (idx + 1) ((idx, t) :: done) (setEntry results t.tag v) hnd.2 hdisj'
          j tg snap hmem
      have hlen' : (setEntry results t.tag v).length = results.length + 1 :=
        length_setEntry_of_none results t.tag v htagnone
      refine ⟨by omega, by omega, ?_, ?_, ?_⟩
      · intro k w h
        have hkne : k ≠ t.tag := by
          intro hc
          rw [hc, htagnone] at h
          cases h
        refine hpres k w ?_
        rw [getEntry_setEntry_ne results t.tag k v hkne]
        exact h
      · intro i hle hlt
        by_cases hi : i = idx
        · subst hi
          exact ⟨v, List.mem_cons.mpr (Or.inr (List.mem_cons.mpr (Or.inl rfl)))⟩
        · obtain ⟨v', hv'⟩ := hD i (by omega) hlt
          exact ⟨v', List.mem_cons.mpr (Or.inr (List.mem_cons.mpr (Or.inr hv')))⟩
      · intro i v' t' hle hlt hmem' hget
        rcases List.mem_cons.mp hmem' with h | hmem'
        · simp at h
        rcases List.mem_cons.mp hmem' with h | hmem'
        · injection h with h1 h2
          subst h1
          injection h2 with h3
          subst h3
          rw [Nat.sub_self] at hget
          have ht' : t' = t := by
            simp [List.get?] at hget
            exact hget.symm
          subst ht'
          exact hpres t'.tag _ (getEntry_setEntry_of_none_self results t'.tag _ htagnone)
        · have hge : idx + 1 ≤ i :=
            (runSteps_acquire_index_ge rest (idx + 1) ((idx, t) :: done)
              (setEntry results t.tag v)).2 i _ hmem'
          have hsub : i - idx = (i - (idx + 1)) + 1 := by omega
          rw [hsub, List.get?_cons_succ] at hget
          exact hC i v' t' hge hlt hmem' hget
    | error e' =>
      rw [hacq] at hmem
      simp only at hmem ⊢
      rcases List.mem_cons.mp hmem with h | hmem
      · injection h with h1 h2 h3
        subst h1
        subst h3
        refine ⟨by omega, by omega, fun k w h => h, ?_, ?_⟩
        · intro i hle hlt
          omega
        · intro i v' t' hle hlt
          omega
      rcases List.mem_cons.mp hmem with h | hmem
      · simp at h
      · exact absurd hmem (runRelease_no_acquireStart _ _ _ _ _ _)

/-- Step `j`'s acquire function is called only after step `j - 1`'s acquire
has resolved successfully: in the trace, an `acquireStart j` event is
preceded by an `acquireEnd (j-1)` event carrying a resolved value. -/
theorem runSteps_sequenced {α ε : Type} (tasks : List (Step α ε)) :
    ∀ (idx : Nat) (done : List (Nat × Step α ε)) (results : List (String × α))
      (p j : Nat) (tg : String) (snap : List (String × α)),
    (runSteps tasks idx done results).1.get? p = some (Event.acquireStart j tg snap) →
    idx < j →
    ∃ q v, q < p ∧
      (runSteps tasks idx done results).1.get? q =
        some (Event.acquireEnd (j - 1) (Except.ok v)) := by
  induction tasks with
  | nil =>
    intro idx done results p j tg snap hget _
    rw [runSteps] at hget
    exact absurd (List.get?_mem hget) (runRelease_no_acquireStart _ _ _ _ _ _)
  | cons t rest ih =>
    intro idx done results p j tg snap hget hj
    rw [runSteps] at hget ⊢
    cases hacq : t.acquire results with
    | ok v =>
      rw [hacq] at hget
      simp only at hget ⊢
      match p, hget with
      | 0, hget =>
        rw [List.get?_cons_zero] at hget
        injection hget with hev
        injection hev with h1 h2 h3
        omega
      | 1, hget =>
        rw [List.get?_cons_succ, List.get?_cons_zero] at hget
        injection hget with hev
        simp at hev
      | (p' + 2), hget =>
        rw [List.get?_cons_succ, List.get?_cons_succ] at hget
        by_cases hje : j = idx + 1
        · refine ⟨1, v, by omega, ?_⟩
          rw [List.get?_cons_succ, List.get?_cons_zero]
          have : j - 1 = idx := by omega
          rw [this]
        · obtain ⟨q', v', hq', hgetq⟩ :=
            ih (idx + 1) ((idx, t) :: done) (setEntry results t.tag v) p' j tg snap
              hget (by omega)
          refine ⟨q' + 2, v', by omega, ?_⟩
          rw [List.get?_cons_succ, List.get?_cons_succ]
          exact hgetq
    | error e' =>
      rw [hacq] at hget
      simp only at hget ⊢
      match p, hget with
      | 0, hget =>
        rw [List.get?_cons_zero] at hget
        injection hget with hev
        injection hev with h1 h2 h3
        omega
      | 1, hget =>
        rw [List.get?_cons_succ, List.get?_cons_zero] at hget
        injection hget with hev
        simp at hev
      | (p' + 2), hget =>
        rw [List.get?_cons_succ, List.get?_cons_succ] at hget
        exact absurd (List.get?_mem hget) (runRelease_no_acquireStart _ _ _ _ _ _)

theorem getEntry_map_overwrite_self {α : Type} (m : List (String × α)) (k : String) (v : α)
    (hany : (m.any fun p => p.1 == k) = true) :
    getEntry (m.map fun p => if (p.1 == k) = true then (k, v) else p) k = some v := by
  induction m with
  | nil => simp at hany
  | cons p rest ih =>
    rw [List.map_cons]
    by_cases hp : (p.1 == k) = true
    · rw [if_pos hp, getEntry_cons]
      simp
    · rw [if_neg hp, getEntry_cons, if_neg hp]
      refine ih ?_
      rw [List.any_cons] at hany
      rcases Bool.or_eq_true_iff.mp hany with h | h
      · exact absurd h hp
      · exact h

/-- `results[tag] = v` makes `results[tag]` read back `v`, whether or not
the key was present before. -/
theorem getEntry_setEntry_self {α : Type} (m : List (String × α)) (k : String) (v : α) :
    getEntry (setEntry m k v) k = some v := by
  rw [setEntry]
  by_cases hany : (m.any fun p => p.1 == k) = true
  · rw [if_pos hany]
    exact getEntry_map_overwrite_self m k v hany
  · rw [if_neg hany]
    rw [Bool.not_eq_true, anyKey_eq_false_iff] at hany
    rw [getEntry_append_of_none _ _ _ hany]
    exact getEntry_singleton_self k v

/-- Once the mapping holds `vj` under `tag` and no remaining step writes to
`tag`, every release called with that tag receives `vj`, and the final
mapping (on the success path) still holds `vj` under `tag`. -/
theorem runSteps_tag_stable {α ε : Type} (tasks : List (Step α ε)) :
    ∀ (idx : Nat) (done : List (Nat × Step α ε)) (results : List (String × α))
      (tag : String) (vj : α),
    (∀ t ∈ tasks, t.tag ≠ tag) →
    getEntry results tag = some vj →
    (∀ k tg res ex, Event.releaseStart k tg res ex ∈ (runSteps tasks idx done results).1 →
      tg = tag → res = some vj) ∧
    (∀ R, (runSteps tasks idx done results).2 = Outcome.ok R → getEntry R tag = some vj) := by
  induction tasks with
  | nil =>
    intro idx done results tag vj _ hget
    rw [runSteps]
    constructor
    · intro k tg res ex hmem htg
      rcases runRelease_mem done results _ _ hmem with ⟨i', tg', h⟩ | ⟨i', oe, h⟩
      · injection h with h1 h2 h3 h4
        subst h2
        subst htg
        rw [h3, hget]
      · simp at h
    · intro R hR
      by_cases hE : ((runRelease done results ⟨false, none⟩).2).isEmpty = true
      · rw [if_pos hE] at hR
        injection hR with h
        subst h
        exact hget
      · rw [if_neg hE] at hR
        cases hR
  | cons t rest ih =>
    intro idx done results tag vj hnotag hget
    have htne : tag ≠ t.tag := fun hc => hnotag t (List.mem_cons_self t rest) hc.symm
    rw [runSteps]
    cases hacq : t.acquire results with
    | ok v =>
      simp only
      have hget' : getEntry (setEntry results t.tag v) tag = some vj := by
        rw [getEntry_setEntry_ne results t.tag tag v htne]
        exact hget
      obtain ⟨h1, h2⟩ := ih (idx + 1) ((idx, t) :: done) (setEntry results t.tag v) tag vj
        (fun t' ht' => hnotag t' (List.mem_cons_of_mem t ht')) hget'
      constructor
      · intro k tg res ex hmem htg
        rcases List.mem_cons.mp hmem with h | hmem
        · simp at h
        rcases List.mem_cons.mp hmem with h | hmem
        · simp at h
        · exact h1 k tg res ex hmem htg
      · exact h2
    | error e' =>
      simp only
      constructor
      · intro k tg res ex hmem htg
        rcases List.mem_cons.mp hmem with h | hmem
        · simp at h
        rcases List.mem_cons.mp hmem with h | hmem
        · simp at h
        rcases runRelease_mem done results _ _ hmem with ⟨i', tg', h⟩ | ⟨i', oe, h⟩
        · injection h with hh1 hh2 hh3 hh4
          subst hh2
          subst htg
          rw [hh3, hget]
        · simp at h
      · intro R hR
        by_cases hE : ((runRelease done results ⟨true, some e'⟩).2).isEmpty = true
        · rw [if_pos hE] at hR
          cases hR
        · rw [if_neg hE] at hR
          cases hR

/-- If the step at position `front.length` writes `tag`, no later step
writes `tag`, and that step's acquire resolved with `vj`, then every
release called with `tag` receives `vj` and the final mapping (success
path) holds `vj` under `tag`. -/
theorem runSteps_last_write {α ε : Type} (front : List (Step α ε)) :
    ∀ (post : List (Step α ε)) (s2 : Step α ε) (idx : Nat)
      (done : List (Nat × Step α ε)) (results : List (String × α)) (tag : String) (vj : α),
    s2.tag = tag →
    (∀ t ∈ post, t.tag ≠ tag) →
    Event.acquireEnd (idx + front.length) (Except.ok vj) ∈
      (runSteps (front ++ s2 :: post) idx done results).1 →
    (∀ k tg res ex,
      Event.releaseStart k tg res ex ∈ (runSteps (front ++ s2 :: post) idx done results).1 →
      tg = tag → res = some vj) ∧
    (∀ R, (runSteps (front ++ s2 :: post) idx done results).2 = Outcome.ok R →
      getEntry R tag = some vj) := by
  induction front with
  | nil =>
    intro post s2 idx done results tag vj htag hpost hmem
    rw [List.nil_append] at hmem ⊢
    rw [List.length_nil, Nat.add_zero] at hmem
    rw [runSteps] at hmem ⊢
    cases hacq : s2.acquire results with
    | ok v =>
      rw [hacq] at hmem
      simp only at hmem ⊢
      have hvj : vj = v := by
        rcases List.mem_cons.mp hmem with h | hmem
        · simp at h
        rcases List.mem_cons.mp hmem with h | hmem
        · injection h with h1 h2
          exact Except.ok.inj h2
        · have := (runSteps_acquire_index_ge post (idx + 1) ((idx, s2) :: done)
            (setEntry results s2.tag v)).2 idx _ hmem
          omega
      have hget' : getEntry (setEntry results s2.tag v) tag = some vj := by
        rw [hvj, ← htag]
        exact getEntry_setEntry_self results s2.tag v
      obtain ⟨h1, h2⟩ := runSteps_tag_stable post (idx + 1) ((idx, s2) :: done)
        (setEntry results s2.tag v) tag vj hpost hget'
      constructor
      · intro k tg res ex hmem' htg
        rcases List.mem_cons.mp hmem' with h | hmem'
        · simp at h
        rcases List.mem_cons.mp hmem' with h | hmem'
        · simp at h
        · exact h1 k tg res ex hmem' htg
      · exact h2
    | error e' =>
      rw [hacq] at hmem
      simp only at hmem
      exfalso
      rcases List.mem_cons.mp hmem with h | hmem
      · simp at h
      rcases List.mem_cons.mp hmem with h | hmem
      · injection h with h1 h2
        simp at h2
      · exact runRelease_no_acquireEnd _ _ _ _ _ hmem
  | cons f front' ih =>
    intro post s2 idx done results tag vj htag hpost hmem
    rw [List.cons_append] at hmem ⊢
    rw [runSteps] at hmem ⊢
    cases hacq : f.acquire results with
    | ok v =>
      rw [hacq] at hmem
      simp only at hmem ⊢
      have hlen : idx + (f :: front').length = (idx + 1) + front'.length := by
        rw [List.length_cons]
        omega
      have hmem' : Event.acquireEnd ((idx + 1) + front'.length) (Except.ok vj) ∈
          (runSteps (front' ++ s2 :: post) (idx + 1) ((idx, f) :: done)
            (setEntry results f.tag v)).1 := by
        rw [← hlen]
        rcases List.mem_cons.mp hmem with h | hmem
        · simp at h
        rcases List.mem_cons.mp hmem with h | hmem
        · injection h with h1 h2
          omega
        · exact hmem
      obtain ⟨h1, h2⟩ := ih post s2 (idx + 1) ((idx, f) :: done)
        (setEntry results f.tag v) tag vj htag hpost hmem'
      constructor
      · intro k tg res ex hmem'' htg
        rcases List.mem_cons.mp hmem'' with h | hmem''
        · simp at h
        rcases List.mem_cons.mp hmem'' with h | hmem''
        · simp at h
        · exact h1 k tg res ex hmem'' htg
      · exact h2
    | error e' =>
      rw [hacq] at hmem
      simp only at hmem
      exfalso
      rcases List.mem_cons.mp hmem with h | hmem
      · simp at h
      rcases List.mem_cons.mp hmem with h | hmem
      · injection h with h1 h2
        rw [List.length_cons] at h1
        omega
      · exact runRelease_no_acquireEnd _ _ _ _ _ hmem

/-! ## Claim-level definitions -/

/-- The results mapping `R` holds exactly one entry per step of `tasks`:
one entry per step (so `R` has as many entries as there are steps), keyed
by the step's tag, holding the value that step's acquire resolved with in
trace `tr`. -/
def resultsExact {α ε : Type} (tasks : List (Step α ε)) (tr : List (Event α ε))
    (R : List (String × α)) : Prop :=
  R.length = tasks.length ∧
  ∀ i t, tasks.get? i = some t →
    ∃ v, Event.acquireEnd i (Except.ok v) ∈ tr ∧ getEntry R t.tag = some v

/-- Every acquire call of trace `tr` receives a mapping holding exactly
the results of the steps before it: one entry per earlier step, each
earlier step resolved, and each earlier step's tag mapped to the value it
resolved with. -/
def snapshotExact {α ε : Type} (tasks : List (Step α ε)) (tr : List (Event α ε)) : Prop :=
  ∀ j tg snap, Event.acquireStart j tg snap ∈ tr →
    snap.length = j ∧
    (∀ i, i < j → ∃ v, Event.acquireEnd i (Except.ok v) ∈ tr) ∧
    (∀ i v t, i < j → Event.acquireEnd i (Except.ok v) ∈ tr →
      tasks.get? i = some t → getEntry snap t.tag = some v)

/-- In trace `tr`, every acquire call of a step `j > 0` happens strictly
after step `j - 1`'s acquire resolved successfully. -/
def acquireSequenced {α ε : Type} (tr : List (Event α ε)) : Prop :=
  ∀ p j tg snap, tr.get? p = some (Event.acquireStart j tg snap) → 0 < j →
    ∃ q v, q < p ∧ tr.get? q = some (Event.acquireEnd (j - 1) (Except.ok v))

/-! ## Concrete pipelines used as counterexamples and witnesses -/

/-- Two steps sharing the tag `"a"`, both acquiring successfully. -/
def dupTasks : List (Step Nat Nat) :=
  [{ tag := "a", acquire := fun _ => Except.ok 1, release := none },
   { tag := "a", acquire := fun _ => Except.ok 2, release := none }]

/-- Two duplicate-tag steps followed by a distinct-tag step. -/
def dup3Tasks : List (Step Nat Nat) :=
  [{ tag := "a", acquire := fun _ => Except.ok 1, release := none },
   { tag := "a", acquire := fun _ => Except.ok 2, release := none },
   { tag := "b", acquire := fun _ => Except.ok 3, release := none }]

/-- Two distinct-tag steps, the second reading the first's resource; the
first declares a release. -/
def wTasks : List (Step Nat Nat) :=
  [{ tag := "a", acquire := fun _ => Except.ok 1,
     release := some (fun _ _ => Except.ok ()) },
   { tag := "b", acquire := fun prev => Except.ok ((getEntry prev "a").getD 0 + 1),
     release := none }]

/-- First step acquires and declares a release; second step's acquire
rejects with `7`. -/
def failTasks : List (Step Nat Nat) :=
  [{ tag := "a", acquire := fun _ => Except.ok 1,
     release := some (fun _ _ => Except.ok ()) },
   { tag := "b", acquire := fun _ => Except.error 7, release := none }]

/-- Two acquired steps (the second one's release rejects with `9`), then a
third step whose acquire rejects with `7`. -/
def rollTasks : List (Step Nat Nat) :=
  [{ tag := "a", acquire := fun _ => Except.ok 1,
     release := some (fun _ _ => Except.ok ()) },
   { tag := "b", acquire := fun _ => Except.ok 2,
     release := some (fun _ _ => Except.error 9) },
   { tag := "c", acquire := fun _ => Except.error 7, release := none }]

/-- First step of `relFailTasks`: acquires `1`, release succeeds. -/
def relFailStep0 : Step Nat Nat :=
  { tag := "a", acquire := fun _ => Except.ok 1,
    release := some (fun _ _ => Except.ok ()) }

/-- Second step of `relFailTasks`: acquires `2`, release rejects with `9`. -/
def relFailStep1 : Step Nat Nat :=
  { tag := "b", acquire := fun _ => Except.ok 2,
    release := some (fun _ _ => Except.error 9) }

/-- Both steps acquire; the second step's release rejects with `9`. -/
def relFailTasks : List (Step Nat Nat) :=
  [relFailStep0, relFailStep1]

/-- First step of `dupRelTasks`: tag `"a"`, acquires `1`. -/
def dupRelStep0 : Step Nat Nat :=
  { tag := "a", acquire := fun _ => Except.ok 1,
    release := some (fun _ _ => Except.ok ()) }

/-- Second step of `dupRelTasks`: tag `"a"` again, acquires `2`. -/
def dupRelStep1 : Step Nat Nat :=
  { tag := "a", acquire := fun _ => Except.ok 2,
    release := some (fun _ _ => Except.ok ()) }

/-- Two steps sharing tag `"a"`, both with release functions. -/
def dupRelTasks : List (Step Nat Nat) :=
  [dupRelStep0, dupRelStep1]

/-! ## Claims -/

/-- C1 (counterexample): on the duplicate-tag pipeline `dupTasks` no
acquire and no release fails, yet the runner's results mapping does not
contain one entry per step holding that step's resource — the two steps
share one entry, and the first step's resource `1` is gone.  This refutes
the claim as stated, which quantifies over every step list. -/
theorem c1_counterexample :
    noAcquireFail (runTransaction dupTasks).1 = true ∧
    noReleaseFail (runTransaction dupTasks).1 = true ∧
    ¬ ∃ R, (runTransaction dupTasks).2 = Outcome.ok R ∧
        resultsExact dupTasks (runTransaction dupTasks).1 R := by
  refine ⟨by decide, by decide, ?_⟩
  rintro ⟨R, hR, hex⟩
  have hcomp : (runTransaction dupTasks).2 = Outcome.ok [("a", 2)] := by decide
  rw [hcomp] at hR
  injection hR with h
  subst h
  exact absurd hex.1 (by decide)

/-- C1 (amended): for every step list with pairwise distinct tags in which
no acquire and no release operation fails, the runner resolves with a
results mapping containing exactly one entry per step, keyed by that
step's tag, whose value is that step's resolved acquired resource. -/
theorem c1_success_results (α ε : Type) (tasks : List (Step α ε))
    (hnd : (tasks.map Step.tag).Nodup)
    (hacq : noAcquireFail (runTransaction tasks).1 = true)
    (hrel : noReleaseFail (runTransaction tasks).1 = true) :
    ∃ R, (runTransaction tasks).2 = Outcome.ok R ∧
      resultsExact tasks (runTransaction tasks).1 R := by
  obtain ⟨R, hR, hlen, _, hstep⟩ :=
    runSteps_success tasks 0 [] [] hnd (by simp) hacq hrel
  refine ⟨R, hR, ?_, ?_⟩
  · rw [hlen]
    simp
  · intro i t h
    obtain ⟨v, hmem, hget⟩ := hstep i t h
    exact ⟨v, by simpa using hmem, hget⟩

/-- C1 (witness): the amended claim applied to the two-step distinct-tag
pipeline `wTasks`. -/
theorem c1_success_results_witness :
    ((wTasks.map Step.tag).Nodup ∧
      noAcquireFail (runTransaction wTasks).1 = true ∧
      noReleaseFail (runTransaction wTasks).1 = true) ∧
    ∃ R, (runTransaction wTasks).2 = Outcome.ok R ∧
      resultsExact wTasks (runTransaction wTasks).1 R :=
  ⟨⟨by decide, by decide, by decide⟩,
    c1_success_results Nat Nat wTasks (by decide) (by decide) (by decide)⟩

/-- C2 (counterexample): on the duplicate-tag pipeline `dup3Tasks`, step
2's acquire receives the mapping `[("a", 2)]`, which has one entry instead
of two and does not contain step 0's resource `1` — so its snapshot does
not contain exactly the results of steps 0 and 1, refuting the claim as
stated. -/
theorem c2_counterexample :
    ¬ (acquireSequenced (runTransaction dup3Tasks).1 ∧
       snapshotExact dup3Tasks (runTransaction dup3Tasks).1) := by
  rintro ⟨_, h⟩
  have h2 := h 2 "b" [("a", 2)] (by decide)
  exact absurd h2.1 (by decide)

/-- C2 (amended): for every step list with pairwise distinct tags, step
`i`'s acquire is invoked only after step `i-1`'s acquire has resolved
successfully, and the mapping it receives contains exactly the results of
steps `0..i-1` — one entry per earlier step, each holding that step's
resolved resource, never a failed or unacquired step's value. -/
theorem c2_acquire_invariant (α ε : Type) (tasks : List (Step α ε))
    (hnd : (tasks.map Step.tag).Nodup) :
    acquireSequenced (runTransaction tasks).1 ∧
    snapshotExact tasks (runTransaction tasks).1 := by
  constructor
  · intro p j tg snap hget hj
    exact runSteps_sequenced tasks 0 [] [] p j tg snap hget hj
  · intro j tg snap hmem
    obtain ⟨_, hlen, _, hD, hC⟩ :=
      runSteps_snapshots tasks 0 [] [] hnd (by simp) j tg snap hmem
    refine ⟨by simpa using hlen, ?_, ?_⟩
    · intro i hi
      exact hD i (Nat.zero_le i) hi
    · intro i v t hij hmem' hget
      exact hC i v t (Nat.zero_le i) hij hmem' (by simpa using hget)

/-- C2 (witness): the amended claim applied to `wTasks`. -/
theorem c2_acquire_invariant_witness :
    (wTasks.map Step.tag).Nodup ∧
    (acquireSequenced (runTransaction wTasks).1 ∧
      snapshotExact wTasks (runTransaction wTasks).1) :=
  ⟨by decide, c2_acquire_invariant Nat Nat wTasks (by decide)⟩

/-- C3: in every run, the release events form a sequence of strictly
decreasing step indices, each release's call mark immediately followed by
its completion mark — so for acquired steps `i < j`, step `j`'s release
completes before step `i`'s release begins, on the success path and on the
rollback path alike. -/
theorem c3_release_reverse_order (α ε : Type) (tasks : List (Step α ε)) :
    ∃ l : List Nat, l.Pairwise (· > ·) ∧
      releaseSkel (runTransaction tasks).1 =
        l.flatMap fun i => [(i, false), (i, true)] :=
  runSteps_skel tasks 0 [] [] (by simp) (by simp)

/-- C4: when some step's acquire rejects with `e` and no release invoked
during the rollback fails, the runner fails with exactly `e`, unchanged
and not wrapped in any aggregate. -/
theorem c4_raw_error (α ε : Type) (tasks : List (Step α ε)) (i : Nat) (e : ε)
    (hmem : Event.acquireEnd i (Except.error e) ∈ (runTransaction tasks).1)
    (hrel : noReleaseFail (runTransaction tasks).1 = true) :
    (runTransaction tasks).2 = Outcome.err e := by
  apply runSteps_err_of_acquireFail tasks 0 [] [] i e hmem
  rw [releaseFailList_eq_nil_iff]
  exact hrel

/-- C4 (witness): on `failTasks`, step 1's acquire rejects with `7`, the
rollback release succeeds, and the runner fails with the raw error `7`. -/
theorem c4_raw_error_witness :
    (Event.acquireEnd 1 (Except.error 7) ∈ (runTransaction failTasks).1 ∧
      noReleaseFail (runTransaction failTasks).1 = true) ∧
    (runTransaction failTasks).2 = Outcome.err 7 :=
  ⟨⟨by decide, by decide⟩, c4_raw_error Nat Nat failTasks 1 7 (by decide) (by decide)⟩

/-- C5: when some step's acquire rejects with `e` and at least one release
fails during the rollback, the runner fails with the rollback aggregate:
`e` first, then the release errors in the order the releases were
attempted — an order that is strictly decreasing in step index, i.e.
reverse of acquisition order. -/
theorem c5_rollback_aggregate (α ε : Type) (tasks : List (Step α ε)) (i : Nat) (e : ε)
    (hmem : Event.acquireEnd i (Except.error e) ∈ (runTransaction tasks).1)
    (hfail : releaseFailList (runTransaction tasks).1 ≠ []) :
    (runTransaction tasks).2 =
      Outcome.aggregate rollbackMessage (e :: releaseFailList (runTransaction tasks).1) ∧
    (releaseFailIndices (runTransaction tasks).1).Pairwise (· > ·) :=
  ⟨runSteps_aggregate_of_acquireFail tasks 0 [] [] i e hmem hfail,
   runSteps_failIndices_pairwise tasks 0 [] [] (by simp) (by simp)⟩

/-- C5 (witness): on `rollTasks`, step 2's acquire rejects with `7`, step
1's rollback release rejects with `9`, and the runner fails with
`AggregateError [7, 9]` under the rollback message. -/
theorem c5_rollback_aggregate_witness :
    (Event.acquireEnd 2 (Except.error 7) ∈ (runTransaction rollTasks).1 ∧
      releaseFailList (runTransaction rollTasks).1 ≠ []) ∧
    ((runTransaction rollTasks).2 =
      Outcome.aggregate rollbackMessage (7 :: releaseFailList (runTransaction rollTasks).1) ∧
    (releaseFailIndices (runTransaction rollTasks).1).Pairwise (· > ·)) :=
  ⟨⟨by decide, by decide⟩,
    c5_rollback_aggregate Nat Nat rollTasks 2 7 (by decide) (by decide)⟩

/-- C6: when every acquire resolves but at least one release fails during
the success pass, the runner fails — the caller never receives the results
mapping — with an aggregate containing exactly the release errors (no
acquire error), in attempt order, which is reverse of acquisition order;
this holds even when exactly one release failed. -/
theorem c6_success_release_aggregate (α ε : Type) (tasks : List (Step α ε))
    (hok : noAcquireFail (runTransaction tasks).1 = true)
    (hfail : releaseFailList (runTransaction tasks).1 ≠ []) :
    (runTransaction tasks).2 =
      Outcome.aggregate successReleaseMessage (releaseFailList (runTransaction tasks).1) ∧
    (∀ R, (runTransaction tasks).2 ≠ Outcome.ok R) ∧
    (releaseFailIndices (runTransaction tasks).1).Pairwise (· > ·) := by
  have h1 : (runTransaction tasks).2 =
      Outcome.aggregate successReleaseMessage (releaseFailList (runTransaction tasks).1) :=
    runSteps_aggregate_of_releaseFail tasks 0 [] [] hok hfail
  refine ⟨h1, ?_, runSteps_failIndices_pairwise tasks 0 [] [] (by simp) (by simp)⟩
  intro R hR
  rw [h1] at hR
  cases hR

/-- C6 (witness): on `relFailTasks`, both acquires resolve, exactly one
release (step 1's) rejects with `9`, and the runner still fails with an
aggregate — `AggregateError [9]` under the success-path message. -/
theorem c6_success_release_aggregate_witness :
    (noAcquireFail (runTransaction relFailTasks).1 = true ∧
      releaseFailList (runTransaction relFailTasks).1 ≠ []) ∧
    ((runTransaction relFailTasks).2 =
      Outcome.aggregate successReleaseMessage
        (releaseFailList (runTransaction relFailTasks).1) ∧
    (∀ R, (runTransaction relFailTasks).2 ≠ Outcome.ok R) ∧
    (releaseFailIndices (runTransaction relFailTasks).1).Pairwise (· > ·)) :=
  ⟨⟨by decide, by decide⟩,
    c6_success_release_aggregate Nat Nat relFailTasks (by decide) (by decide)⟩

/-- C7: every release call receives an `Exit` whose `isError` is true
exactly when the run contains a rejected acquire (the rollback case), whose
`error` field then equals that originating acquire error, and whose
`error` field is absent whenever `isError` is false. -/
theorem c7_exit_descriptor (α ε : Type) (tasks : List (Step α ε)) (i : Nat)
    (tg : String) (res : Option α) (ex : Exit ε)
    (hmem : Event.releaseStart i tg res ex ∈ (runTransaction tasks).1) :
    (ex.isError = true ↔
      ∃ j e, Event.acquireEnd j (Except.error e) ∈ (runTransaction tasks).1) ∧
    (∀ j e, Event.acquireEnd j (Except.error e) ∈ (runTransaction tasks).1 →
      ex.error = some e) ∧
    (ex.isError = false → ex.error = none) :=
  runSteps_exit_correct tasks 0 [] [] i tg res ex hmem

/-- C7 (witness): on `failTasks`, step 0's rollback release is called with
`isError = true` and `error = 7`, matching the originating acquire
failure. -/
theorem c7_exit_descriptor_witness :
    (Event.releaseStart 0 "a" (some 1) ⟨true, some 7⟩ ∈ (runTransaction failTasks).1) ∧
    ((Exit.isError ⟨true, some 7⟩ = true ↔
      ∃ j e, Event.acquireEnd j (Except.error e) ∈ (runTransaction failTasks).1) ∧
    (∀ j e, Event.acquireEnd j (Except.error e) ∈ (runTransaction failTasks).1 →
      Exit.error ⟨true, some 7⟩ = some e) ∧
    (Exit.isError ⟨true, some 7⟩ = false → Exit.error ⟨true, some 7⟩ = none)) :=
  ⟨by decide,
    c7_exit_descriptor Nat Nat failTasks 0 "a" (some 1) ⟨true, some 7⟩ (by decide)⟩

/-- Helper: a successfully acquired step with a declared release function
has its release invoked exactly once during a run. -/
theorem releaseCalledOnce {α ε : Type} (tasks : List (Step α ε)) (i : Nat)
    (t : Step α ε)
    (hget : tasks.get? i = some t)
    (hrel : t.release.isSome = true)
    (hacq : ∃ v, Event.acquireEnd i (Except.ok v) ∈ (runTransaction tasks).1) :
    countReleaseStart (runTransaction tasks).1 i = 1 := by
  have hc : countReleaseStart (runTransaction tasks).1 i =
      List.count i (relIndices ([] : List (Nat × Step α ε))) +
        (if acquiredOk (runTransaction tasks).1 i = true ∧ 0 ≤ i ∧
            stepHasRelease tasks (i - 0) = true then 1 else 0) :=
    runSteps_count tasks 0 [] [] i
  have hok : acquiredOk (runTransaction tasks).1 i = true := (acquiredOk_iff _ _).mpr hacq
  have hsr : stepHasRelease tasks (i - 0) = true := by
    rw [Nat.sub_zero]
    unfold stepHasRelease
    rw [hget]
    exact hrel
  rw [hc, if_pos ⟨hok, Nat.zero_le i, hsr⟩]
  simp

/-- C8: every successfully acquired step that declares a release function
has its release invoked exactly once during the reverse pass, regardless
of what any other step's release did. -/
theorem c8_release_called_once (α ε : Type) (tasks : List (Step α ε)) (i : Nat)
    (t : Step α ε)
    (hget : tasks.get? i = some t)
    (hrel : t.release.isSome = true)
    (hacq : ∃ v, Event.acquireEnd i (Except.ok v) ∈ (runTransaction tasks).1) :
    countReleaseStart (runTransaction tasks).1 i = 1 :=
  releaseCalledOnce tasks i t hget hrel hacq

/-- C8 (witness): on `relFailTasks`, step 1's release rejects, yet step 0's
release is still invoked exactly once. -/
theorem c8_release_called_once_witness :
    (relFailTasks.get? 0 = some relFailStep0 ∧
      relFailStep0.release.isSome = true ∧
      (∃ v, Event.acquireEnd 0 (Except.ok v) ∈ (runTransaction relFailTasks).1)) ∧
    countReleaseStart (runTransaction relFailTasks).1 0 = 1 :=
  ⟨⟨rfl, rfl, ⟨1, by decide⟩⟩,
    c8_release_called_once Nat Nat relFailTasks 0 relFailStep0 rfl rfl ⟨1, by decide⟩⟩

/-- Shared acquire function for the C9 witness builders. -/
def wAcquire : List (String × Nat) → Except Nat Nat := fun _ => Except.ok 5

/-- A builder declared through `createTransaction`. -/
def builderA : Builder Nat Nat := (createTransaction).add "a" wAcquire none

/-- A builder declared through `createBracket`, with the same steps. -/
def builderB : Builder Nat Nat := (createBracket).add "a" wAcquire none

/-- C9: runners built from builders with the same declared steps are
interchangeable — every invocation of either returns the same trace and
outcome — and every invocation starts from a freshly initialized empty
results mapping: the first acquire call receives the empty mapping. -/
theorem c9_builder_stateless (α ε : Type) (b1 b2 : Builder α ε)
    (h : b1.tasks = b2.tasks) :
    (∀ u v : Unit, b1.build u = b2.build v) ∧
    (∀ t rest, b1.tasks = t :: rest →
      (b1.build ()).1.head? = some (Event.acquireStart 0 t.tag [])) := by
  constructor
  · intro u v
    show runTransaction b1.tasks = runTransaction b2.tasks
    rw [h]
  · intro t rest ht
    show (runTransaction b1.tasks).1.head? = _
    rw [ht, runTransaction, runSteps]
    cases hacq : t.acquire [] with
    | ok v =>
      simp only
      rw [List.head?_cons]
    | error e =>
      simp only
      rw [List.head?_cons]

/-- C9 (witness): two one-step builders, declared through different entry
points but with the same steps, build interchangeable stateless runners. -/
theorem c9_builder_stateless_witness :
    (builderA.tasks = builderB.tasks) ∧
    ((∀ u v : Unit, builderA.build u = builderB.build v) ∧
    (∀ t rest, builderA.tasks = t :: rest →
      (builderA.build ()).1.head? = some (Event.acquireStart 0 t.tag []))) :=
  ⟨rfl, c9_builder_stateless Nat Nat builderA builderB rfl⟩

/-- C10: when exactly two steps of the pipeline share a tag and both
acquire successfully, the later step's resource `vj` overwrites the
earlier one's entry: the final mapping (on the success path) holds `vj`
under the tag, every release called with that tag — the earlier step's
release included — receives `vj`, and the earlier step's release never
receives the resource `vi` that step itself acquired (whenever the two
resources differ); each step's declared release is still invoked exactly
once. -/
theorem c10_duplicate_tag_overwrite (α ε : Type) (pre mid post : List (Step α ε))
    (s1 s2 : Step α ε) (tag : String) (vi vj : α)
    (ht1 : s1.tag = tag) (ht2 : s2.tag = tag)
    (hpre : ∀ t ∈ pre, t.tag ≠ tag) (hmid : ∀ t ∈ mid, t.tag ≠ tag)
    (hpost : ∀ t ∈ post, t.tag ≠ tag)
    (hacq1 : Event.acquireEnd pre.length (Except.ok vi) ∈
      (runTransaction (pre ++ s1 :: mid ++ s2 :: post)).1)
    (hacq2 : Event.acquireEnd (pre.length + 1 + mid.length) (Except.ok vj) ∈
      (runTransaction (pre ++ s1 :: mid ++ s2 :: post)).1) :
    (∀ k tg res ex, Event.releaseStart k tg res ex ∈
        (runTransaction (pre ++ s1 :: mid ++ s2 :: post)).1 →
      tg = tag → res = some vj) ∧
    (∀ R, (runTransaction (pre ++ s1 :: mid ++ s2 :: post)).2 = Outcome.ok R →
      getEntry R tag = some vj) ∧
    (vi ≠ vj → ∀ k tg res ex, Event.releaseStart k tg res ex ∈
        (runTransaction (pre ++ s1 :: mid ++ s2 :: post)).1 →
      tg = tag → res ≠ some vi) ∧
    (s1.release.isSome = true →
      countReleaseStart (runTransaction (pre ++ s1 :: mid ++ s2 :: post)).1 pre.length = 1) ∧
    (s2.release.isSome = true →
      countReleaseStart (runTransaction (pre ++ s1 :: mid ++ s2 :: post)).1
        (pre.length + 1 + mid.length) = 1) := by
  have htasks : pre ++ s1 :: mid ++ s2 :: post = (pre ++ s1 :: mid) ++ s2 :: post := by
    rw [List.append_assoc, List.cons_append]
  have hidx : pre.length + 1 + mid.length = 0 + (pre ++ s1 :: mid).length := by
    rw [List.length_append, List.length_cons]
    omega
  have hacq2' : Event.acquireEnd (0 + (pre ++ s1 :: mid).length) (Except.ok vj) ∈
      (runSteps ((pre ++ s1 :: mid) ++ s2 :: post) 0 [] []).1 := by
    rw [← hidx, ← htasks]
    exact hacq2
  obtain ⟨g1, g2⟩ := runSteps_last_write (pre ++ s1 :: mid) post s2 0 [] [] tag vj
    ht2 hpost hacq2'
  have g1' : ∀ k tg res ex, Event.releaseStart k tg res ex ∈
      (runTransaction (pre ++ s1 :: mid ++ s2 :: post)).1 → tg = tag → res = some vj := by
    intro k tg res ex hmem htg
    refine g1 k tg res ex ?_ htg
    rw [← htasks]
    exact hmem
  have g2' : ∀ R, (runTransaction (pre ++ s1 :: mid ++ s2 :: post)).2 = Outcome.ok R →
      getEntry R tag = some vj := by
    intro R hR
    refine g2 R ?_
    rw [← htasks]
    exact hR
  have hget1 : (pre ++ s1 :: mid ++ s2 :: post).get? pre.length = some s1 := by
    rw [htasks, List.get?_append (by rw [List.length_append, List.length_cons]; omega)]
    rw [List.get?_append_right (Nat.le_refl pre.length), Nat.sub_self]
    rfl
  have hget2 : (pre ++ s1 :: mid ++ s2 :: post).get? (pre.length + 1 + mid.length) =
      some s2 := by
    rw [htasks, List.get?_append_right (by rw [List.length_append, List.length_cons]; omega)]
    have : pre.length + 1 + mid.length - (pre ++ s1 :: mid).length = 0 := by
      rw [List.length_append, List.length_cons]
      omega
    rw [this]
    rfl
  refine ⟨g1', g2', ?_, ?_, ?_⟩
  · intro hne k tg res ex hmem htg
    rw [g1' k tg res ex hmem htg]
    intro hc
    injection hc with h
    exact hne h.symm
  · intro hrel1
    exact releaseCalledOnce (pre ++ s1 :: mid ++ s2 :: post) pre.length s1
      hget1 hrel1 ⟨vi, hacq1⟩
  · intro hrel2
    exact releaseCalledOnce (pre ++ s1 :: mid ++ s2 :: post)
      (pre.length + 1 + mid.length) s2 hget2 hrel2 ⟨vj, hacq2⟩

/-- C10 (witness): on `dupRelTasks` both same-tag acquires resolve (with
`1` then `2`); both releases receive `2`, the first step's release never
sees its own `1`, the final mapping holds `2` under `"a"`, and both
releases run exactly once. -/
theorem c10_duplicate_tag_overwrite_witness :
    (dupRelStep0.tag = "a" ∧ dupRelStep1.tag = "a" ∧
      Event.acquireEnd 0 (Except.ok 1) ∈ (runTransaction dupRelTasks).1 ∧
      Event.acquireEnd 1 (Except.ok 2) ∈ (runTransaction dupRelTasks).1) ∧
    ((∀ k tg res ex, Event.releaseStart k tg res ex ∈ (runTransaction dupRelTasks).1 →
        tg = "a" → res = some 2) ∧
    (∀ R, (runTransaction dupRelTasks).2 = Outcome.ok R → getEntry R "a" = some 2) ∧
    ((1 : Nat) ≠ 2 → ∀ k tg res ex,
        Event.releaseStart k tg res ex ∈ (runTransaction dupRelTasks).1 →
      tg = "a" → res ≠ some 1) ∧
    (dupRelStep0.release.isSome = true →
      countReleaseStart (runTransaction dupRelTasks).1 0 = 1) ∧
    (dupRelStep1.release.isSome = true →
      countReleaseStart (runTransaction dupRelTasks).1 1 = 1)) :=
  ⟨⟨rfl, rfl, by decide, by decide⟩,
    c10_duplicate_tag_overwrite Nat Nat [] [] [] dupRelStep0 dupRelStep1 "a" 1 2
      rfl rfl (by simp) (by simp) (by simp) (by decide) (by decide)⟩
